import Mathlib

/-!
# Thread-safe linked-list stack (`main.c`)

A verification development for the pthread stack demonstration: the
linked-list stack (`push`, `pop`, `is_empty`), the per-thread driver
`testStack`, and the mutex that delimits each driver iteration.

## Embedding

* `value_t` is C `int`; the values the driver pushes are `i`, `i + 1`, `i + 2`
  with `0 ≤ i < ITERATIONS = 500`, far from the 32-bit limits, so they are
  modelled as `Int` and the additions are exact.
* A pointer is a natural number, `NULL` is `0`.
* The heap maps each address to the `StackNode` stored there, or to `none`
  when no live block starts at that address.
* `malloc` is external.  Its result is an argument of `push`: `NULL` on
  failure, otherwise the address of the block it handed out.
* Every operation returns an `Outcome`: a normal return with a value and
  the memory afterwards, a process exit (`exit(EXIT_FAILURE)`) with the
  memory at that point, or a fault (a read through a pointer to no live block).
* The concurrent program is a step relation: a step is one call (`lock`,
  `unlock`, `push`, `pop`, `is_empty`) made by one thread, and a schedule lists
  which thread moves and what `malloc` returns to it.  All threads are present
  from the start; a thread that `main` creates late is a thread that is
  scheduled late.  Printing, `perror`, thread creation and joining are left out.
-/

namespace Stack

/-! ## Data model -/

/-- The element type: `typedef int value_t`. -/
abbrev value_t := Int

/-- A pointer to a `StackNode`. -/
abbrev Ptr := Nat

/-- The null pointer. -/
def NULL : Ptr := 0

/-- The constant `EXIT_FAILURE` of `stdlib.h`. -/
def EXIT_FAILURE : Nat := 1

/-- The constant `NUM_THREADS`. -/
def NUM_THREADS : Nat := 10

/-- The constant `ITERATIONS`. -/
def ITERATIONS : Nat := 500

/-- The record `struct Node`. -/
structure StackNode where
  data : value_t
  next : Ptr
deriving DecidableEq

/-- The live blocks: address to contents. -/
abbrev Heap := Ptr → Option StackNode

/-- The heap with no live block. -/
def emptyHeap : Heap := fun _ => none

/-- The memory the stack functions touch: the heap and the global `top`. -/
structure Mem where
  heap : Heap
  top : Ptr

/-- The state at program start: `top = NULL` and nothing allocated. -/
def Mem.init : Mem := { heap := emptyHeap, top := NULL }

/-- The result of running a piece of the program. -/
inductive Outcome (α : Type) where
  | ret (a : α) (s : Mem) : Outcome α
  | exit (code : Nat) (s : Mem) : Outcome α
  | fault : Outcome α

/-- Sequencing: continue after a normal return, stop at an exit or a fault. -/
def Outcome.andThen {α β : Type} (o : Outcome α) (k : α → Mem → Outcome β) : Outcome β :=
  match o with
  | .ret a s => k a s
  | .exit c s => .exit c s
  | .fault => .fault

/-! ## The stack functions -/

/-- The function `is_empty`: `return top == NULL;`. -/
def is_empty (s : Mem) : Outcome Int :=
  .ret (if s.top = NULL then 1 else 0) s

/-- The function `push`, given the pointer `new_node` that `malloc` returned. -/
def push (new_node : Ptr) (v : value_t) (s : Mem) : Outcome Unit :=
  if new_node = NULL then
    .exit EXIT_FAILURE s
  else
    -- new_node->data = v; new_node->next = top; top = new_node;
    .ret () { heap := Function.update s.heap new_node (some { data := v, next := s.top }),
              top := new_node }

/-- The function `pop`. -/
def pop (s : Mem) : Outcome value_t :=
  (is_empty s).andThen fun r s =>
    if r ≠ 0 then
      .ret 0 s
    else
      -- temp = top; data = temp->data; top = top->next; free(temp); return data;
      match s.heap s.top with
      | none => .fault
      | some node =>
        .ret node.data { heap := Function.update s.heap s.top none, top := node.next }

/-! ## The statements of `push`

The function `push` above gives the memory after the whole call.  Here the
call is split into its statements, to see the memories in between. -/

/-- The effect of `malloc(sizeof(StackNode))` when it returns `m`: nothing on
failure, otherwise the block at `m` becomes live with indeterminate contents
`junk`. -/
def mallocNode (m : Ptr) (junk : StackNode) (s : Mem) : Mem :=
  if m = NULL then s else { s with heap := Function.update s.heap m (some junk) }

/-- A store through the pointer `p`: the node at `p` is replaced by `f` of it;
a fault when no live block is at `p`. -/
def store (p : Ptr) (f : StackNode → StackNode) (s : Mem) : Outcome Unit :=
  match s.heap p with
  | none => .fault
  | some n => .ret () { s with heap := Function.update s.heap p (some (f n)) }

/-- The three statements of `push` after the allocation check, in order:
`new_node->data = v; new_node->next = top; top = new_node;`. -/
def pushStmts (new_node : Ptr) (v : value_t) : List (Mem → Outcome Unit) :=
  [fun s => store new_node (fun n => { n with data := v }) s,
   fun s => store new_node (fun n => { n with next := s.top }) s,
   fun s => .ret () { s with top := new_node }]

/-- Run statements in order from `s`: the memory after each statement that
returned, and the outcome of the whole. -/
def runStmts : List (Mem → Outcome Unit) → Mem → List Mem × Outcome Unit
  | [], s => ([], .ret () s)
  | f :: fs, s =>
    match f s with
    | .ret _ s1 => let r := runStmts fs s1; (s1 :: r.1, r.2)
    | .exit c s1 => ([], .exit c s1)
    | .fault => ([], .fault)

/-- The function `push` statement by statement, `malloc` returning `m` (with
contents `junk` when it succeeds): the memory after `malloc` and after each
later statement, and the outcome of the call. -/
def pushTrace (m : Ptr) (junk : StackNode) (v : value_t) (s : Mem) : List Mem × Outcome Unit :=
  let s1 := mallocNode m junk s
  if m = NULL then
    ([s1], .exit EXIT_FAILURE s1)
  else
    let r := runStmts (pushStmts m v) s1
    (s1 :: r.1, r.2)

/-! ## The abstract contents of the stack -/

/-- `Chain h p cells`: following `next` from `p` in heap `h` visits exactly the
nodes `cells` (address and data, top to bottom) and then reaches `NULL`. -/
inductive Chain (h : Heap) : Ptr → List (Ptr × value_t) → Prop where
  | nil : Chain h NULL []
  | cons {p : Ptr} {n : StackNode} {cells : List (Ptr × value_t)} :
      p ≠ NULL → h p = some n → Chain h n.next cells → Chain h p ((p, n.data) :: cells)

/-- The stack in memory `s` holds the values `xs`, top to bottom. -/
def Holds (s : Mem) (xs : List value_t) : Prop :=
  ∃ cells, Chain s.heap s.top cells ∧ cells.map Prod.snd = xs

/-- Walk at most `fuel` links from `p`, collecting address and data. -/
def walk (h : Heap) : Nat → Ptr → Option (List (Ptr × value_t))
  | 0, p => if p = NULL then some [] else none
  | fuel + 1, p =>
    if p = NULL then some []
    else match h p with
      | none => none
      | some n => (walk h fuel n.next).map fun cells => (p, n.data) :: cells

/-- The postcondition of a successful `malloc` in heap `h`: the pointer is
not `NULL` and no live block is at that address. -/
def Fresh (h : Heap) (p : Ptr) : Prop := p ≠ NULL ∧ h p = none

/-- Three successful `malloc` results with none of the blocks freed in between,
seen from the heap before the first call: each is fresh there and they are
pairwise different. -/
def Fresh3 (h : Heap) (m1 m2 m3 : Ptr) : Prop :=
  Fresh h m1 ∧ Fresh h m2 ∧ Fresh h m3 ∧ m1 ≠ m2 ∧ m1 ≠ m3 ∧ m2 ≠ m3

/-- Call `pop` `n` times in a row and collect the returned values in order. -/
def popTimes : Nat → Mem → Outcome (List value_t)
  | 0, s => .ret [] s
  | n + 1, s =>
    (pop s).andThen fun r s1 =>
    (popTimes n s1).andThen fun rs s2 =>
    .ret (r :: rs) s2

/-- Call `push` for each entry of the list in order; an entry is the result of
the `malloc` of that call and the value pushed. -/
def pushAll : List (Ptr × value_t) → Mem → Outcome Unit
  | [], s => .ret () s
  | (m, v) :: rest, s => (push m v s).andThen fun _ s1 => pushAll rest s1

/-- The stack holding the single value 0, in the block at address 1. -/
def zeroTop : Mem :=
  { heap := Function.update emptyHeap 1 (some { data := 0, next := NULL }), top := 1 }

/-! ## The driver `testStack` -/

/-- Three pushes followed by three pops, as between lock and unlock in
`testStack`; `m1 m2 m3` are the results of the three `malloc` calls. -/
def push3pop3 (m1 m2 m3 : Ptr) (v1 v2 v3 : value_t) (s : Mem) :
    Outcome (value_t × value_t × value_t) :=
  (push m1 v1 s).andThen fun _ s =>
  (push m2 v2 s).andThen fun _ s =>
  (push m3 v3 s).andThen fun _ s =>
  (pop s).andThen fun r1 s =>
  (pop s).andThen fun r2 s =>
  (pop s).andThen fun r3 s =>
  .ret (r1, r2, r3) s

/-- The stack calls of iteration `i` of the loop in `testStack`:
`push(i); push(i + 1); push(i + 2); v1 = pop(); v2 = pop(); v3 = pop();`. -/
def iterationBody (m1 m2 m3 : Ptr) (i : value_t) (s : Mem) :
    Outcome (value_t × value_t × value_t) :=
  push3pop3 m1 m2 m3 i (i + 1) (i + 2) s

/-- One iteration of the loop as it is run: the loop counter and the results
of its three `malloc` calls. -/
structure Iter where
  i : value_t
  m1 : Ptr
  m2 : Ptr
  m3 : Ptr

/-- Run the bodies of the given iterations one after another, in list order,
and collect the three popped values of each. -/
def runSerial : List Iter → Mem → Outcome (List (value_t × value_t × value_t))
  | [], s => .ret [] s
  | it :: its, s =>
    (iterationBody it.m1 it.m2 it.m3 it.i s).andThen fun r s1 =>
    (runSerial its s1).andThen fun rs s2 =>
    .ret (r :: rs) s2

/-! ## Threads and the mutex

The program's threads run concurrently.  A step of the system is one call
made by one thread: `pthread_mutex_lock`, `pthread_mutex_unlock`, `push`,
`pop` or `is_empty`.  The stack functions contain no call on the mutex, so a
step of one of them neither tests nor changes it. -/

/-- A thread identifier. -/
abbrev Tid := Nat

/-- A call a thread makes. -/
inductive Call where
  | lock : Call
  | unlock : Call
  | push (v : value_t) : Call
  | pop : Call
  | is_empty : Call
deriving DecidableEq

/-- Whether the call is one of the stack functions. -/
def Call.onStack : Call → Bool
  | .push _ => true
  | .pop => true
  | .is_empty => true
  | _ => false

/-- A completed call, with the value it returned. -/
inductive Event where
  | lock : Event
  | unlock : Event
  | push (v : value_t) : Event
  | pop (r : value_t) : Event
  | is_empty (r : Int) : Event
deriving DecidableEq

/-- A thread: the calls it still has to make, in program order, and the calls
it has completed. -/
structure Thread where
  calls : List Call
  trace : List Event

/-- Whether the process is running, has called `exit`, or has faulted. -/
inductive Status where
  | running : Status
  | exited (code : Nat) : Status
  | faulted : Status
deriving DecidableEq

/-- The process: the stack memory, the owner of the global `mutex` (`none`
when it is free), the threads and the process status. -/
structure Sys where
  mem : Mem
  mutex : Option Tid
  threads : Tid → Thread
  status : Status

/-- Thread `t` has completed its next call with event `e`; `rest` are the
calls it has left. -/
def Sys.advance (σ : Sys) (t : Tid) (rest : List Call) (e : Event) : Tid → Thread :=
  Function.update σ.threads t { calls := rest, trace := (σ.threads t).trace ++ [e] }

/-- One step: thread `t` makes its next call; `m` is what `malloc` returns if
the call is a `push`.  There is no step (`none`) when the process is not
running, when the thread has no call left, when it waits for the mutex, or
when `m` would be a live block, which `malloc` never returns. -/
def step (σ : Sys) (t : Tid) (m : Ptr) : Option Sys :=
  match σ.status with
  | .running =>
    match (σ.threads t).calls with
    | [] => none
    | .lock :: rest =>
      if σ.mutex = none then
        some { σ with mutex := some t, threads := σ.advance t rest .lock }
      else none
    | .unlock :: rest =>
      if σ.mutex = some t then
        some { σ with mutex := none, threads := σ.advance t rest .unlock }
      else some { σ with status := .faulted }
    | .push v :: rest =>
      if m ≠ NULL ∧ (σ.mem.heap m).isSome then none
      else
        match push m v σ.mem with
        | .ret _ s => some { σ with mem := s, threads := σ.advance t rest (.push v) }
        | .exit c s => some { σ with mem := s, status := .exited c }
        | .fault => some { σ with status := .faulted }
    | .pop :: rest =>
      match pop σ.mem with
      | .ret r s => some { σ with mem := s, threads := σ.advance t rest (.pop r) }
      | .exit c s => some { σ with mem := s, status := .exited c }
      | .fault => some { σ with status := .faulted }
    | .is_empty :: rest =>
      match is_empty σ.mem with
      | .ret r s => some { σ with mem := s, threads := σ.advance t rest (.is_empty r) }
      | .exit c s => some { σ with mem := s, status := .exited c }
      | .fault => some { σ with status := .faulted }
  | _ => none

/-- Run a schedule: a list of steps, each naming the thread that moves and the
result of `malloc` for that step. -/
def run (σ : Sys) : List (Tid × Ptr) → Option Sys
  | [] => some σ
  | (t, m) :: rest => (step σ t m).bind fun σ1 => run σ1 rest

/-- The state a schedule leads to, and the state itself when the schedule
cannot be run. -/
def Sys.after (σ : Sys) (sch : List (Tid × Ptr)) : Sys :=
  (run σ sch).getD σ

/-- A schedule of the program: thread 3 runs its first iteration (blocks 1, 2,
3), then thread 0 runs its first iteration (blocks 3, 1, 2). -/
def exampleSchedule : List (Tid × Ptr) :=
  [(3, 1), (3, 1), (3, 2), (3, 3), (3, 1), (3, 1), (3, 1), (3, 1),
   (0, 1), (0, 3), (0, 1), (0, 2), (0, 1), (0, 1), (0, 1), (0, 1)]

/-- The calls of iteration `i` of the loop in `testStack`. -/
def iterationCalls (i : value_t) : List Call :=
  [.lock, .push i, .push (i + 1), .push (i + 2), .pop, .pop, .pop, .unlock]

/-- The calls of the loop in `testStack` from counter value `i` with `k`
iterations to go. -/
def loopCalls (i : Nat) : Nat → List Call
  | 0 => []
  | k + 1 => iterationCalls i ++ loopCalls (i + 1) k

/-- The calls of `testStack` when the loop bound is `n`. -/
def testStack (n : Nat) : List Call := loopCalls 0 n

/-- The process after `main` has created `T` threads that run `testStack`
with loop bound `n`, the stack memory being `s0`. -/
def Sys.start (T n : Nat) (s0 : Mem) : Sys :=
  { mem := s0
    mutex := none
    threads := fun t => if t < T then { calls := testStack n, trace := [] }
      else { calls := [], trace := [] }
    status := .running }

/-- The program: `NUM_THREADS` threads, `ITERATIONS` iterations each, the
stack empty. -/
def Sys.main : Sys := Sys.start NUM_THREADS ITERATIONS Mem.init

/-- The process with `T` threads running `testStack` with loop bound `n`, and
one more thread, number `T`, that makes the calls `cs` and never touches the
mutex. -/
def Sys.withCaller (T n : Nat) (s0 : Mem) (cs : List Call) : Sys :=
  { mem := s0
    mutex := none
    threads := fun t => if t < T then { calls := testStack n, trace := [] }
      else if t = T then { calls := cs, trace := [] }
      else { calls := [], trace := [] }
    status := .running }

/-- One `testStack` thread (number 0) with loop bound 1 on the empty stack,
and a caller (number 1) that calls `is_empty`, `pop` and `push(7)` without
locking. -/
def raceStart : Sys := Sys.withCaller 1 1 Mem.init [.is_empty, .pop, .push 7]

/-- A schedule for one `testStack` thread (number 0) and a caller (number 1)
that does not lock: thread 0 locks and pushes 0 into block 1; the caller calls
`is_empty`, `pop` and `push` (block 2); thread 0 then makes its remaining
calls (blocks 3 and 4). -/
def raceSchedule : List (Tid × Ptr) :=
  [(0, 1), (0, 1), (1, 1), (1, 1), (1, 2), (0, 3), (0, 4), (0, 1), (0, 1), (0, 1), (0, 1)]

/-- The events of iteration `i` when its pops return the pushed values in
reverse. -/
def iterationEvents (i : value_t) : List Event :=
  [.lock, .push i, .push (i + 1), .push (i + 2), .pop (i + 2), .pop (i + 1), .pop i, .unlock]

/-- The events of `k` iterations from counter value `i`. -/
def loopEvents (i : Nat) : Nat → List Event
  | 0 => []
  | k + 1 => iterationEvents i ++ loopEvents (i + 1) k

/-- The number of completed `push` calls in a trace. -/
def countPush (tr : List Event) : Nat :=
  tr.countP fun e => match e with
    | .push _ => true
    | _ => false

/-- The number of completed `pop` calls in a trace. -/
def countPop (tr : List Event) : Nat :=
  tr.countP fun e => match e with
    | .pop _ => true
    | _ => false

/-- The number of completed iterations in a trace: one per `unlock`. -/
def countUnlock (tr : List Event) : Nat :=
  tr.countP fun e => match e with
    | .unlock => true
    | _ => false

/-! ## Invariants of the running program -/

/-- What is known while a thread is between its lock and its unlock, with the
calls `cs` still to make before the unlock: every remaining `push` gets a
fresh block, every remaining `pop` returns normally, and when `cs` is
exhausted the memory is `s0` again and the trace, once the unlock is added, is
`done`. -/
def InCS (s0 : Mem) (done : List Event) : List Call → Mem → List Event → Prop
  | [], mem, tr => mem = s0 ∧ tr ++ [.unlock] = done
  | .push v :: cs, mem, tr =>
    ∀ m, Fresh mem.heap m →
      InCS s0 done cs ⟨Function.update mem.heap m (some ⟨v, mem.top⟩), m⟩ (tr ++ [.push v])
  | .pop :: cs, mem, tr =>
    ∃ r s1, pop mem = .ret r s1 ∧ InCS s0 done cs s1 (tr ++ [.pop r])
  | _ :: _, _, _ => False

/-- The invariant of the program with `T` threads, loop bound `n` and initial
stack memory `s0`. -/
structure Inv (T n : Nat) (s0 : Mem) (σ : Sys) : Prop where
  /-- Identifiers from `T` on name no thread. -/
  outside : ∀ t, T ≤ t → (σ.threads t).calls = [] ∧ (σ.threads t).trace = []
  /-- The owner of the mutex is one of the threads. -/
  owner : ∀ t, σ.mutex = some t → t < T
  /-- A thread that does not own the mutex is at the head of its loop. -/
  idle : ∀ t, t < T → σ.mutex ≠ some t →
    ∃ i, i ≤ n ∧ (σ.threads t).calls = loopCalls i (n - i) ∧
      (σ.threads t).trace = loopEvents 0 i
  /-- With the mutex free the stack memory is the initial one. -/
  free : σ.mutex = none → σ.mem = s0
  /-- The owner of the mutex is inside an iteration. -/
  held : ∀ t, σ.mutex = some t →
    ∃ i cs, i < n ∧ (σ.threads t).calls = cs ++ .unlock :: loopCalls (i + 1) (n - (i + 1)) ∧
      InCS s0 (loopEvents 0 (i + 1)) cs σ.mem (σ.threads t).trace

/-- The steps the program takes from a state that satisfies the invariant. -/
inductive Moves (σ : Sys) (t : Tid) (m : Ptr) (σ1 : Sys) : Prop where
  | lock (rest : List Call) :
      σ.mutex = none → (σ.threads t).calls = .lock :: rest →
      σ1 = ⟨σ.mem, some t, σ.advance t rest .lock, .running⟩ → Moves σ t m σ1
  | unlock (rest : List Call) :
      σ.mutex = some t → (σ.threads t).calls = .unlock :: rest →
      σ1 = ⟨σ.mem, none, σ.advance t rest .unlock, .running⟩ → Moves σ t m σ1
  | push (v : value_t) (rest : List Call) :
      σ.mutex = some t → (σ.threads t).calls = .push v :: rest → Fresh σ.mem.heap m →
      σ1 = ⟨⟨Function.update σ.mem.heap m (some ⟨v, σ.mem.top⟩), m⟩, some t,
        σ.advance t rest (.push v), .running⟩ → Moves σ t m σ1
  | pushFail (v : value_t) (rest : List Call) :
      σ.mutex = some t → (σ.threads t).calls = .push v :: rest → m = NULL →
      σ1 = ⟨σ.mem, some t, σ.threads, .exited EXIT_FAILURE⟩ → Moves σ t m σ1
  | pop (r : value_t) (s1 : Mem) (rest : List Call) :
      σ.mutex = some t → (σ.threads t).calls = .pop :: rest → pop σ.mem = .ret r s1 →
      σ1 = ⟨s1, some t, σ.advance t rest (.pop r), .running⟩ → Moves σ t m σ1

/-- The number of calls the threads `0 .. T - 1` still have to make. -/
def remaining (T : Nat) (σ : Sys) : Nat :=
  ∑ t in Finset.range T, (σ.threads t).calls.length

/-- Only finitely many blocks are live: none from address `B` on. -/
def FiniteHeap (h : Heap) : Prop := ∃ B : Nat, ∀ q, B ≤ q → h q = none

/-- The final state of a run with `T` threads and loop bound `n` from the
empty stack: the stack is empty and no block is live, the mutex is free, and
every thread has made all its calls, its trace being that of `n` iterations
whose pops return the pushed values in reverse. -/
def Completed (T n : Nat) (σ : Sys) : Prop :=
  σ.status = .running ∧ σ.mem.top = NULL ∧ (∀ q, σ.mem.heap q = none) ∧ σ.mutex = none ∧
    ∀ t, t < T → (σ.threads t).calls = [] ∧ (σ.threads t).trace = loopEvents 0 n

/-- The invariant of a run from the empty stack in which `malloc` has not
failed: the invariant `Inv`, the process is running, and finitely many blocks
are live. -/
structure Good (T n : Nat) (σ : Sys) : Prop where
  inv : Inv T n Mem.init σ
  running : σ.status = .running
  finite : FiniteHeap σ.mem.heap

/-! ## Lock discipline -/

/-- The `lock` and `unlock` events of a trace, in order. -/
def lockEvents (tr : List Event) : List Event :=
  tr.filter fun e => match e with
    | .lock => true
    | .unlock => true
    | _ => false

/-- The pattern `lock, unlock` repeated `k` times, followed by one more `lock`
when `held` is true. -/
def lockPattern : Nat → Bool → List Event
  | 0, false => []
  | 0, true => [.lock]
  | k + 1, held => .lock :: .unlock :: lockPattern k held

/-- In every thread's trace the `lock` and `unlock` events alternate, starting
with `lock`, and the last `lock` is without its `unlock` exactly when the
thread owns the mutex. -/
def LockInv (σ : Sys) : Prop :=
  ∀ t, ∃ k, lockEvents (σ.threads t).trace = lockPattern k (decide (σ.mutex = some t))

/-- The process is running, or it has exited with `EXIT_FAILURE` at a `push`
of the thread that owns the mutex. -/
def StatusInv (σ : Sys) : Prop :=
  σ.status = .running ∨
    (σ.status = .exited EXIT_FAILURE ∧
      ∃ t v rest, σ.mutex = some t ∧ (σ.threads t).calls = .push v :: rest)

/-- A schedule of the program in which an allocation fails: thread 0 locks and
pushes 0 into block 1, and `malloc` returns `NULL` to its second `push`. -/
def failSchedule : List (Tid × Ptr) := [(0, 1), (0, 1), (0, NULL)]

/-! ## Reachable memories and the heap invariants -/

/-- The memories reachable from the initial one by calls of the stack
functions that return, every `push` getting a fresh block from `malloc`. -/
inductive Reachable : Mem → Prop where
  | init : Reachable Mem.init
  | push {s s1 : Mem} (m : Ptr) (v : value_t) :
      Reachable s → Fresh s.heap m → push m v s = .ret () s1 → Reachable s1
  | pop {s s1 : Mem} (r : value_t) : Reachable s → pop s = .ret r s1 → Reachable s1
  | is_empty {s s1 : Mem} (r : Int) : Reachable s → is_empty s = .ret r s1 → Reachable s1

/-- The chain invariant: following `next` from `top` reaches `NULL` after
finitely many nodes (the list `cells`) and visits no address twice. -/
def Acyclic (s : Mem) : Prop :=
  ∃ cells, Chain s.heap s.top cells ∧ (cells.map Prod.fst).Nodup

/-- The live blocks are exactly the nodes on the chain from `top`. -/
def Owned (s : Mem) : Prop :=
  ∃ cells, Chain s.heap s.top cells ∧ ∀ p, (s.heap p).isSome = true ↔ p ∈ cells.map Prod.fst

end Stack

namespace Stack

/-! ## Basic facts about the stack functions -/

theorem push_ok {m : Ptr} (hm : m ≠ NULL) (v : value_t) (s : Mem) :
    push m v s = .ret () ⟨Function.update s.heap m (some ⟨v, s.top⟩), m⟩ := by
  simp [push, hm]

theorem push_null (v : value_t) (s : Mem) : push NULL v s = .exit EXIT_FAILURE s := by
  simp [push]

theorem pop_nonempty {s : Mem} {n : StackNode} (ht : s.top ≠ NULL)
    (hn : s.heap s.top = some n) :
    pop s = .ret n.data ⟨Function.update s.heap s.top none, n.next⟩ := by
  simp [pop, is_empty, Outcome.andThen, ht, hn]

theorem pop_empty {s : Mem} (ht : s.top = NULL) : pop s = .ret 0 s := by
  simp [pop, is_empty, Outcome.andThen, ht]

/-- A push into a fresh block followed by a pop returns the pushed value and
restores the memory. -/
theorem push_then_pop {m : Ptr} (v : value_t) (s : Mem) (hm : Fresh s.heap m) :
    (push m v s).andThen (fun _ s1 => pop s1) = .ret v s := by
  obtain ⟨hm, hf⟩ := hm
  rw [push_ok hm, Outcome.andThen]
  rw [pop_nonempty (n := ⟨v, s.top⟩) hm (by simp)]
  cases s with
  | mk heap top =>
    simp
    exact hf.symm

/-- Sequencing is associative. -/
theorem andThen_assoc {α β γ : Type} (o : Outcome α) (k : α → Mem → Outcome β)
    (k2 : β → Mem → Outcome γ) :
    (o.andThen k).andThen k2 = o.andThen fun a s => (k a s).andThen k2 := by
  cases o <;> rfl

/-- Three pushes into fresh blocks followed by three pops return the values in
reverse order and restore the memory. -/
theorem push3pop3_eq (s : Mem) (v1 v2 v3 : value_t) (m1 m2 m3 : Ptr)
    (hm : Fresh3 s.heap m1 m2 m3) :
    push3pop3 m1 m2 m3 v1 v2 v3 s = .ret (v3, v2, v1) s := by
  obtain ⟨⟨h1, f1⟩, ⟨h2, f2⟩, ⟨h3, f3⟩, d12, d13, d23⟩ := hm
  unfold push3pop3
  rw [push_ok h1, Outcome.andThen, push_ok h2, Outcome.andThen, push_ok h3, Outcome.andThen]
  rw [pop_nonempty (n := ⟨v3, m2⟩) h3 (by simp), Outcome.andThen]
  rw [pop_nonempty (n := ⟨v2, m1⟩) h2 (by simp [Function.update, d23, d12]), Outcome.andThen]
  rw [pop_nonempty (n := ⟨v1, s.top⟩) h1
    (by simp [Function.update, d12, d13, d23, Ne.symm d12, Ne.symm d13]), Outcome.andThen]
  cases s with
  | mk heap top =>
    simp only [Outcome.ret.injEq, Mem.mk.injEq, and_true, true_and]
    funext q
    by_cases q1 : q = m1
    · subst q1; simpa [Function.update] using f1.symm
    · by_cases q2 : q = m2
      · subst q2; simpa [Function.update, q1] using f2.symm
      · by_cases q3 : q = m3
        · subst q3; simpa [Function.update, q1, q2] using f3.symm
        · simp [Function.update, q1, q2, q3]

/-- What `Fresh3` abbreviates: each `malloc` result is fresh in the heap in
which that call is made, the earlier blocks being still live. -/
theorem fresh3_iff_stepwise (h : Heap) (m1 m2 m3 : Ptr) (n1 n2 : StackNode) :
    Fresh3 h m1 m2 m3 ↔
      Fresh h m1 ∧ Fresh (Function.update h m1 (some n1)) m2 ∧
        Fresh (Function.update (Function.update h m1 (some n1)) m2 (some n2)) m3 := by
  unfold Fresh3 Fresh
  constructor
  · rintro ⟨⟨h1, f1⟩, ⟨h2, f2⟩, ⟨h3, f3⟩, d12, d13, d23⟩
    refine ⟨⟨h1, f1⟩, ⟨h2, ?_⟩, ⟨h3, ?_⟩⟩
    · simp [Function.update, Ne.symm d12, f2]
    · simp [Function.update, Ne.symm d13, Ne.symm d23, f3]
  · rintro ⟨⟨h1, f1⟩, ⟨h2, f2⟩, ⟨h3, f3⟩⟩
    have d12 : m1 ≠ m2 := by
      intro e; subst e; simp [Function.update] at f2
    have d23 : m2 ≠ m3 := by
      intro e; subst e; simp [Function.update] at f3
    have d13 : m1 ≠ m3 := by
      intro e; subst e; simp [Function.update, Ne.symm d23] at f3
    refine ⟨⟨h1, f1⟩, ⟨h2, ?_⟩, ⟨h3, ?_⟩, d12, d13, d23⟩
    · simpa [Function.update, Ne.symm d12] using f2
    · simpa [Function.update, Ne.symm d13, Ne.symm d23] using f3

/-! ## Facts about chains -/

theorem chain_nil_iff (h : Heap) (p : Ptr) : Chain h p [] ↔ p = NULL := by
  constructor
  · intro hc; cases hc; rfl
  · intro e; subst e; exact Chain.nil

theorem holds_nil_iff (s : Mem) : Holds s [] ↔ s.top = NULL := by
  constructor
  · rintro ⟨cells, hc, hm⟩
    have : cells = [] := by simpa using hm
    subst this
    exact (chain_nil_iff _ _).1 hc
  · intro e
    exact ⟨[], (chain_nil_iff _ _).2 e, rfl⟩

/-- The first cell of a chain is the node `p` points to. -/
theorem chain_cons_inv {h : Heap} {p a : Ptr} {x : value_t} {rest : List (Ptr × value_t)}
    (hc : Chain h p ((a, x) :: rest)) :
    a = p ∧ p ≠ NULL ∧ ∃ n, h p = some n ∧ n.data = x ∧ Chain h n.next rest := by
  cases hc with
  | cons hp hn hr => exact ⟨rfl, hp, _, hn, rfl, hr⟩

/-- From one pointer there is at most one chain. -/
theorem chain_unique {h : Heap} {p : Ptr} {c1 c2 : List (Ptr × value_t)}
    (h1 : Chain h p c1) (h2 : Chain h p c2) : c1 = c2 := by
  induction h1 generalizing c2 with
  | nil =>
    cases h2 with
    | nil => rfl
    | cons hp _ _ => exact absurd rfl hp
  | cons hp hn _ ih =>
    cases h2 with
    | nil => exact absurd rfl hp
    | cons _ hn2 hr2 =>
      rw [hn] at hn2
      cases hn2
      rw [ih hr2]

/-- A memory holds at most one list of values. -/
theorem holds_unique {s : Mem} {xs ys : List value_t} (h1 : Holds s xs) (h2 : Holds s ys) :
    xs = ys := by
  obtain ⟨c1, hc1, rfl⟩ := h1
  obtain ⟨c2, hc2, rfl⟩ := h2
  rw [chain_unique hc1 hc2]

/-- Every cell of a chain is a live block holding the recorded data, and a
chain that is no longer starts at it. -/
theorem chain_mem {h : Heap} {p : Ptr} {cells : List (Ptr × value_t)} (hc : Chain h p cells)
    {a : Ptr} {d : value_t} (ha : (a, d) ∈ cells) :
    a ≠ NULL ∧ (∃ n, h a = some n ∧ n.data = d) ∧
      ∃ sub, Chain h a sub ∧ sub.length ≤ cells.length := by
  induction hc with
  | nil => cases ha
  | @cons p n cells hp hn hr ih =>
    rcases List.mem_cons.1 ha with e | hmem
    · cases e
      exact ⟨hp, ⟨n, hn, rfl⟩, _, Chain.cons hp hn hr, le_refl _⟩
    · obtain ⟨h1, h2, sub, h3, h4⟩ := ih hmem
      exact ⟨h1, h2, sub, h3, by simp only [List.length_cons]; omega⟩

/-- A chain visits no address twice: the top node is not among the nodes below it. -/
theorem chain_head_not_mem {h : Heap} {p : Ptr} {x : value_t} {rest : List (Ptr × value_t)}
    (hc : Chain h p ((p, x) :: rest)) : p ∉ rest.map Prod.fst := by
  intro hin
  obtain ⟨⟨a, d⟩, hmem, rfl⟩ := List.mem_map.1 hin
  obtain ⟨_, _, _, _, _, hr⟩ := chain_cons_inv hc
  obtain ⟨_, _, sub, hsub, hlen⟩ := chain_mem hr hmem
  have := chain_unique hsub hc
  subst this
  simp at hlen

/-- A chain is unaffected by a change of the heap at an address it does not visit. -/
theorem chain_update {h : Heap} {p : Ptr} {cells : List (Ptr × value_t)} (hc : Chain h p cells)
    {a : Ptr} (ha : a ∉ cells.map Prod.fst) (v : Option StackNode) :
    Chain (Function.update h a v) p cells := by
  induction hc with
  | nil => exact Chain.nil
  | @cons p n cells hp hn hr ih =>
    simp only [List.map_cons, List.mem_cons, not_or] at ha
    refine Chain.cons hp ?_ (ih ha.2)
    rw [Function.update_noteq (Ne.symm ha.1)]
    exact hn

/-- The fuel-bounded walk finds exactly the chains. -/
theorem walk_eq_some_iff (h : Heap) (fuel : Nat) (p : Ptr) (cells : List (Ptr × value_t)) :
    walk h fuel p = some cells ↔ Chain h p cells ∧ cells.length ≤ fuel := by
  induction fuel generalizing p cells with
  | zero =>
    constructor
    · intro hw
      by_cases hp : p = NULL
      · simp [walk, hp] at hw
        subst hw hp
        exact ⟨Chain.nil, le_refl _⟩
      · simp [walk, hp] at hw
    · rintro ⟨hc, hl⟩
      have : cells = [] := List.length_eq_zero.1 (Nat.le_zero.1 hl)
      subst this
      have := (chain_nil_iff _ _).1 hc
      simp [walk, this]
  | succ fuel ih =>
    constructor
    · intro hw
      by_cases hp : p = NULL
      · simp [walk, hp] at hw
        subst hw hp
        exact ⟨Chain.nil, Nat.zero_le _⟩
      · simp only [walk, hp, if_false] at hw
        cases hn : h p with
        | none => simp [hn] at hw
        | some n =>
          simp only [hn, Option.map_eq_some'] at hw
          obtain ⟨rest, hr, rfl⟩ := hw
          obtain ⟨hc, hl⟩ := (ih _ _).1 hr
          exact ⟨Chain.cons hp hn hc, by simp only [List.length_cons]; omega⟩
    · rintro ⟨hc, hl⟩
      cases hc with
      | nil => simp [walk]
      | @cons _ n rest hp hn hr =>
        simp only [walk, hp, if_false, hn, Option.map_eq_some']
        exact ⟨rest, (ih _ _).2 ⟨hr, by simp only [List.length_cons] at hl; omega⟩, rfl⟩

/-! ## The claims -/

/-- C1. LIFO order: from every memory `s` and for all values `v1 v2 v3`, three
pushes (the three allocations succeeding with fresh blocks) followed by three
pops return `v3`, `v2`, `v1` in that order and leave the memory exactly `s`; in
particular pushing 10, 11, 12 on the empty stack and popping three times
returns 12, 11, 10 and the stack ends empty. -/
theorem C1_lifo_order (s : Mem) (v1 v2 v3 : value_t) (m1 m2 m3 : Ptr)
    (hm : Fresh3 s.heap m1 m2 m3) :
    push3pop3 m1 m2 m3 v1 v2 v3 s = .ret (v3, v2, v1) s ∧
      (∀ a b c : Ptr, Fresh3 Mem.init.heap a b c →
        push3pop3 a b c 10 11 12 Mem.init = .ret (12, 11, 10) Mem.init) ∧
      Holds Mem.init [] ∧ Mem.init.top = NULL :=
  ⟨push3pop3_eq s v1 v2 v3 m1 m2 m3 hm,
    fun a b c h => push3pop3_eq Mem.init 10 11 12 a b c h,
    ⟨[], Chain.nil, rfl⟩, rfl⟩

/-- Fresh blocks 1, 2, 3 in the empty heap. -/
theorem fresh3_init : Fresh3 Mem.init.heap 1 2 3 := by
  simp [Fresh3, Fresh, Mem.init, emptyHeap, NULL]

/-- C1 at the scenario of the specification: empty stack, values 10, 11, 12,
the blocks at addresses 1, 2, 3. -/
theorem C1_lifo_order_witness :
    Fresh3 Mem.init.heap 1 2 3 ∧
      (push3pop3 1 2 3 10 11 12 Mem.init = .ret (12, 11, 10) Mem.init ∧
        (∀ a b c : Ptr, Fresh3 Mem.init.heap a b c →
          push3pop3 a b c 10 11 12 Mem.init = .ret (12, 11, 10) Mem.init) ∧
        Holds Mem.init [] ∧ Mem.init.top = NULL) :=
  ⟨fresh3_init, C1_lifo_order Mem.init 10 11 12 1 2 3 fresh3_init⟩

/-- Popping with `top = NULL` any number of times returns zeros and changes nothing. -/
theorem popTimes_empty (n : Nat) {s : Mem} (ht : s.top = NULL) :
    popTimes n s = .ret (List.replicate n 0) s := by
  induction n with
  | zero => rfl
  | succ n ih => simp [popTimes, pop_empty ht, Outcome.andThen, ih, List.replicate_succ]

/-- C2. Empty-pop sentinel: when `top` is `NULL` (the stack holds no element),
`pop` returns 0 and the memory afterwards is the memory before, whatever the
heap holds (no node is read or freed: the call does not fault even when no
block is live); any number of pops in a row keep returning 0 and keep the
stack empty. -/
theorem C2_empty_pop_sentinel (s : Mem) (ht : s.top = NULL) :
    Holds s [] ∧ pop s = .ret 0 s ∧
      pop ⟨emptyHeap, s.top⟩ = .ret 0 ⟨emptyHeap, s.top⟩ ∧
      ∀ n : Nat, popTimes n s = .ret (List.replicate n 0) s :=
  ⟨(holds_nil_iff s).2 ht, pop_empty ht, pop_empty (s := ⟨emptyHeap, s.top⟩) ht,
    fun n => popTimes_empty n ht⟩

/-- C2 at the initial memory. -/
theorem C2_empty_pop_sentinel_witness :
    Mem.init.top = NULL ∧
      (Holds Mem.init [] ∧ pop Mem.init = .ret 0 Mem.init ∧
        pop ⟨emptyHeap, Mem.init.top⟩ = .ret 0 ⟨emptyHeap, Mem.init.top⟩ ∧
        ∀ n : Nat, popTimes n Mem.init = .ret (List.replicate n 0) Mem.init) :=
  ⟨rfl, C2_empty_pop_sentinel Mem.init rfl⟩

/-- C3. Pop of a non-empty stack: when the chain from `top` is the cell
`(a, x)` followed by `rest`, `pop` returns `x`, the data of the top node; `top`
becomes that node's `next` (which is `NULL` exactly when `rest` is empty); the
top node's block is freed and no other block changes; and the chain from the
new `top` is exactly `rest`, same addresses, same data, same order. -/
theorem C3_pop_top (s : Mem) (a : Ptr) (x : value_t) (rest : List (Ptr × value_t))
    (hc : Chain s.heap s.top ((a, x) :: rest)) :
    ∃ n s1, a = s.top ∧ s.heap s.top = some n ∧ n.data = x ∧
      pop s = .ret x s1 ∧ s1.top = n.next ∧ (rest = [] ↔ s1.top = NULL) ∧
      s1.heap s.top = none ∧ (∀ q, q ≠ s.top → s1.heap q = s.heap q) ∧
      Chain s1.heap s1.top rest ∧ Holds s1 (rest.map Prod.snd) := by
  obtain ⟨ha, hp, n, hn, hx, hr⟩ := chain_cons_inv hc
  subst ha
  have hfree : Chain (Function.update s.heap s.top none) n.next rest :=
    chain_update hr (chain_head_not_mem hc) none
  refine ⟨n, ⟨Function.update s.heap s.top none, n.next⟩, rfl, hn, hx, ?_, rfl, ?_, ?_, ?_,
    hfree, ⟨rest, hfree, rfl⟩⟩
  · rw [pop_nonempty hp hn, hx]
  · constructor
    · intro e; subst e; exact (chain_nil_iff _ _).1 hr
    · intro e
      have e2 : n.next = NULL := e
      rw [e2] at hr
      cases hr with
      | nil => rfl
      | cons hq _ _ => exact absurd rfl hq
  · simp
  · intro q hq
    simp [Function.update, hq]

/-- C3 on the stack holding 7 above 5, in the blocks at addresses 2 and 1. -/
theorem C3_pop_top_witness :
    Chain (Function.update (Function.update emptyHeap 1 (some ⟨5, NULL⟩)) 2 (some ⟨7, 1⟩)) 2
        [(2, 7), (1, 5)] ∧
      ∃ n s1, (2 : Ptr) =
          (Mem.mk (Function.update (Function.update emptyHeap 1 (some ⟨5, NULL⟩)) 2
            (some ⟨7, 1⟩)) 2).top ∧
        (Mem.mk (Function.update (Function.update emptyHeap 1 (some ⟨5, NULL⟩)) 2
            (some ⟨7, 1⟩)) 2).heap
          (Mem.mk (Function.update (Function.update emptyHeap 1 (some ⟨5, NULL⟩)) 2
            (some ⟨7, 1⟩)) 2).top = some n ∧ n.data = 7 ∧
        pop (Mem.mk (Function.update (Function.update emptyHeap 1 (some ⟨5, NULL⟩)) 2
            (some ⟨7, 1⟩)) 2) = .ret 7 s1 ∧ s1.top = n.next ∧
        ([((1 : Ptr), (5 : value_t))] = [] ↔ s1.top = NULL) ∧
        s1.heap (Mem.mk (Function.update (Function.update emptyHeap 1 (some ⟨5, NULL⟩)) 2
            (some ⟨7, 1⟩)) 2).top = none ∧
        (∀ q, q ≠ (Mem.mk (Function.update (Function.update emptyHeap 1 (some ⟨5, NULL⟩)) 2
            (some ⟨7, 1⟩)) 2).top →
          s1.heap q = (Mem.mk (Function.update (Function.update emptyHeap 1 (some ⟨5, NULL⟩)) 2
            (some ⟨7, 1⟩)) 2).heap q) ∧
        Chain s1.heap s1.top [(1, 5)] ∧ Holds s1 ([((1 : Ptr), (5 : value_t))].map Prod.snd) :=
  have hc : Chain (Function.update (Function.update emptyHeap 1 (some ⟨5, NULL⟩)) 2
      (some ⟨7, 1⟩)) 2 [(2, 7), (1, 5)] :=
    Chain.cons (n := ⟨7, 1⟩) (by decide) (by simp [Function.update])
      (Chain.cons (n := ⟨5, NULL⟩) (by decide) (by simp [Function.update]) Chain.nil)
  ⟨hc, C3_pop_top ⟨_, 2⟩ 2 7 [(1, 5)] hc⟩

/-- C4. Push: when `malloc` succeeds with a fresh block `m`, `push` returns
normally for every value `v`; afterwards `top` is `m`, the node at `m` holds
`v` and its `next` is the previous `top`, no other block changes, and the
chain from the new `top` is the new cell `(m, v)` followed by the previous
chain, every earlier node keeping its address, data and position. -/
theorem C4_push_top (s : Mem) (v : value_t) (m : Ptr) (cells : List (Ptr × value_t))
    (hm : Fresh s.heap m) (hc : Chain s.heap s.top cells) :
    ∃ s1, push m v s = .ret () s1 ∧ s1.top = m ∧ s1.heap m = some ⟨v, s.top⟩ ∧
      (∀ q, q ≠ m → s1.heap q = s.heap q) ∧
      Chain s1.heap s1.top ((m, v) :: cells) ∧ Holds s1 (v :: cells.map Prod.snd) := by
  obtain ⟨hnull, hfree⟩ := hm
  have hnot : m ∉ cells.map Prod.fst := by
    intro hin
    obtain ⟨⟨a, d⟩, hmem, rfl⟩ := List.mem_map.1 hin
    obtain ⟨_, ⟨n, hn, _⟩, _⟩ := chain_mem hc hmem
    rw [hfree] at hn
    cases hn
  have hnew : Chain (Function.update s.heap m (some ⟨v, s.top⟩)) m ((m, v) :: cells) :=
    Chain.cons (n := ⟨v, s.top⟩) hnull (by simp) (chain_update hc hnot _)
  refine ⟨⟨Function.update s.heap m (some ⟨v, s.top⟩), m⟩, push_ok hnull v s, rfl, by simp, ?_,
    hnew, ⟨_, hnew, rfl⟩⟩
  intro q hq
  simp [Function.update, hq]

/-- C4 on the stack holding 5 in the block at address 1, pushing 7 into block 2. -/
theorem C4_push_top_witness :
    Fresh (Mem.mk (Function.update emptyHeap 1 (some ⟨5, NULL⟩)) 1).heap 2 ∧
      Chain (Mem.mk (Function.update emptyHeap 1 (some ⟨5, NULL⟩)) 1).heap
        (Mem.mk (Function.update emptyHeap 1 (some ⟨5, NULL⟩)) 1).top [(1, 5)] ∧
      ∃ s1, push 2 7 (Mem.mk (Function.update emptyHeap 1 (some ⟨5, NULL⟩)) 1) = .ret () s1 ∧
        s1.top = 2 ∧
        s1.heap 2 = some ⟨7, (Mem.mk (Function.update emptyHeap 1 (some ⟨5, NULL⟩)) 1).top⟩ ∧
        (∀ q, q ≠ 2 →
          s1.heap q = (Mem.mk (Function.update emptyHeap 1 (some ⟨5, NULL⟩)) 1).heap q) ∧
        Chain s1.heap s1.top ((2, 7) :: [(1, 5)]) ∧
        Holds s1 (7 :: [((1 : Ptr), (5 : value_t))].map Prod.snd) :=
  have hf : Fresh (Mem.mk (Function.update emptyHeap 1 (some ⟨5, NULL⟩)) 1).heap 2 :=
    ⟨by decide, by simp [Function.update, emptyHeap]⟩
  have hc : Chain (Mem.mk (Function.update emptyHeap 1 (some ⟨5, NULL⟩)) 1).heap
      (Mem.mk (Function.update emptyHeap 1 (some ⟨5, NULL⟩)) 1).top [(1, 5)] :=
    Chain.cons (n := ⟨5, NULL⟩) (by decide) (by simp [Function.update]) Chain.nil
  ⟨hf, hc, C4_push_top _ 7 2 [(1, 5)] hf hc⟩

/-- C5. The function `is_empty` returns 1 exactly when `top` is `NULL`, which is
exactly when the stack holds no element, and 0 otherwise; the memory after the
call (`top` and every block) is the memory before it. -/
theorem C5_is_empty (s : Mem) :
    ∃ r, is_empty s = .ret r s ∧ (r = 1 ∨ r = 0) ∧ (r = 1 ↔ s.top = NULL) ∧
      (r = 0 ↔ s.top ≠ NULL) ∧ (r = 1 ↔ Holds s []) ∧
      ∀ xs, Holds s xs → (r = 1 ↔ xs.length = 0) := by
  refine ⟨if s.top = NULL then 1 else 0, rfl, ?_, ?_, ?_, ?_, ?_⟩
  · by_cases h : s.top = NULL <;> simp [h]
  · by_cases h : s.top = NULL <;> simp [h]
  · by_cases h : s.top = NULL <;> simp [h]
  · rw [holds_nil_iff]
    by_cases h : s.top = NULL <;> simp [h]
  · intro xs hx
    by_cases h : s.top = NULL
    · have h0 := (holds_nil_iff s).2 h
      obtain ⟨c1, hc1, e1⟩ := hx
      obtain ⟨c2, hc2, e2⟩ := h0
      have := chain_unique hc1 hc2
      subst this
      simp [h, ← e1, e2]
    · simp only [h, if_false, zero_ne_one, false_iff, List.length_eq_zero]
      intro e
      subst e
      exact h ((holds_nil_iff s).1 hx)

/-- The body of one iteration, run with fresh blocks, returns `i + 2`, `i + 1`,
`i` and restores the memory. -/
theorem iterationBody_eq (s : Mem) (i : value_t) (m1 m2 m3 : Ptr)
    (hm : Fresh3 s.heap m1 m2 m3) :
    iterationBody m1 m2 m3 i s = .ret (i + 2, i + 1, i) s :=
  push3pop3_eq s i (i + 1) (i + 2) m1 m2 m3 hm

/-- Any list of iterations run serially restores the memory and returns, for
each, the three values pushed in reverse. -/
theorem runSerial_eq (s : Mem) (its : List Iter)
    (hm : ∀ it ∈ its, Fresh3 s.heap it.m1 it.m2 it.m3) :
    runSerial its s = .ret (its.map fun it => (it.i + 2, it.i + 1, it.i)) s := by
  induction its with
  | nil => rfl
  | cons it its ih =>
    have h1 := hm it (List.mem_cons_self _ _)
    have h2 := ih fun x hx => hm x (List.mem_cons_of_mem _ hx)
    simp [runSerial, iterationBody_eq s it.i it.m1 it.m2 it.m3 h1, Outcome.andThen, h2]

/-- C6. Net-zero invariant: from every memory `s`, running the bodies of any
list of iterations one after another (any number `N` of them, any loop
counters in any order, so any serial order of iterations of any number of
threads), each with three fresh blocks from `malloc`, returns normally with
the memory exactly `s`: the same elements in the same order, hence the same
element count. -/
theorem C6_net_zero (s : Mem) (its : List Iter)
    (hm : ∀ it ∈ its, Fresh3 s.heap it.m1 it.m2 it.m3) :
    ∃ rs s1, runSerial its s = .ret rs s1 ∧ rs.length = its.length ∧ s1 = s ∧
      ∀ xs, Holds s xs → Holds s1 xs ∧ ∀ ys, Holds s1 ys → ys.length = xs.length := by
  refine ⟨_, s, runSerial_eq s its hm, by simp, rfl, ?_⟩
  intro xs hx
  refine ⟨hx, ?_⟩
  rintro ys ⟨c1, hc1, rfl⟩
  obtain ⟨c2, hc2, rfl⟩ := hx
  rw [chain_unique hc1 hc2]

/-- C6 on the empty stack with two iterations, counter 1 before counter 0. -/
theorem C6_net_zero_witness :
    (∀ it ∈ [Iter.mk 1 1 2 3, Iter.mk 0 3 1 2], Fresh3 Mem.init.heap it.m1 it.m2 it.m3) ∧
      ∃ rs s1, runSerial [Iter.mk 1 1 2 3, Iter.mk 0 3 1 2] Mem.init = .ret rs s1 ∧
        rs.length = [Iter.mk 1 1 2 3, Iter.mk 0 3 1 2].length ∧ s1 = Mem.init ∧
        ∀ xs, Holds Mem.init xs →
          Holds s1 xs ∧ ∀ ys, Holds s1 ys → ys.length = xs.length :=
  have hm : ∀ it ∈ [Iter.mk 1 1 2 3, Iter.mk 0 3 1 2],
      Fresh3 Mem.init.heap it.m1 it.m2 it.m3 := by
    simp [Fresh3, Fresh, Mem.init, emptyHeap, NULL]
  ⟨hm, C6_net_zero Mem.init _ hm⟩

/-! ## The running program -/

theorem loopEvents_append (a k : Nat) :
    loopEvents a (k + 1) = loopEvents a k ++ iterationEvents ((a + k : Nat) : value_t) := by
  induction k generalizing a with
  | zero => simp [loopEvents]
  | succ k ih =>
    rw [loopEvents, ih (a + 1), loopEvents, List.append_assoc]
    have : a + 1 + k = a + (k + 1) := by omega
    rw [this]

/-- On taking the lock with the memory `s0`, the six calls of the iteration
restore `s0` and produce the events of the iteration. -/
theorem inCS_enter (s0 : Mem) (tr : List Event) (i : value_t) :
    InCS s0 (tr ++ iterationEvents i) [.push i, .push (i + 1), .push (i + 2), .pop, .pop, .pop]
      s0 (tr ++ [.lock]) := by
  intro m1 ⟨h1, f1⟩ m2 ⟨h2, f2⟩ m3 ⟨h3, f3⟩
  have d12 : m1 ≠ m2 := by
    intro e; subst e; simp [Function.update] at f2
  have d23 : m2 ≠ m3 := by
    intro e; subst e; simp [Function.update] at f3
  have d13 : m1 ≠ m3 := by
    intro e; subst e; simp [Function.update, Ne.symm d23] at f3
  have g2 : s0.heap m2 = none := by simpa [Function.update, Ne.symm d12] using f2
  have g3 : s0.heap m3 = none := by
    simpa [Function.update, Ne.symm d13, Ne.symm d23] using f3
  refine ⟨i + 2, _, pop_nonempty (n := ⟨i + 2, m2⟩) h3 (by simp), ?_⟩
  refine ⟨i + 1, _, pop_nonempty (n := ⟨i + 1, m1⟩) h2
    (by simp [Function.update, d23, d12]), ?_⟩
  refine ⟨i, _, pop_nonempty (n := ⟨i, s0.top⟩) h1
    (by simp [Function.update, d12, d13, d23, Ne.symm d12, Ne.symm d13]), ?_⟩
  constructor
  · cases s0 with
    | mk heap top =>
      simp only [Mem.mk.injEq, and_true]
      funext q
      by_cases q1 : q = m1
      · subst q1; simpa [Function.update] using f1.symm
      · by_cases q2 : q = m2
        · subst q2; simpa [Function.update, q1] using g2.symm
        · by_cases q3 : q = m3
          · subst q3; simpa [Function.update, q1, q2] using g3.symm
          · simp [Function.update, q1, q2, q3]
  · simp [iterationEvents]

theorem advance_same (σ : Sys) (t : Tid) (rest : List Call) (e : Event) :
    σ.advance t rest e t = ⟨rest, (σ.threads t).trace ++ [e]⟩ := by
  simp [Sys.advance]

theorem advance_other (σ : Sys) {t u : Tid} (h : u ≠ t) (rest : List Call) (e : Event) :
    σ.advance t rest e u = σ.threads u := by
  simp [Sys.advance, Function.update, h]

/-- The invariant holds when the threads start. -/
theorem inv_start (T n : Nat) (s0 : Mem) : Inv T n s0 (Sys.start T n s0) where
  outside := by
    intro t ht
    simp [Sys.start, Nat.not_lt.2 ht]
  owner := by
    intro t h
    simp [Sys.start] at h
  idle := by
    intro t ht _
    exact ⟨0, Nat.zero_le _, by simp [Sys.start, ht, testStack], by simp [Sys.start, ht, loopEvents]⟩
  free := fun _ => rfl
  held := by
    intro t h
    simp [Sys.start] at h

/-- A step that changes neither the mutex, the threads nor the memory keeps the invariant. -/
theorem inv_of_same {T n : Nat} {s0 : Mem} {σ σ1 : Sys} (hinv : Inv T n s0 σ)
    (h1 : σ1.mem = σ.mem) (h2 : σ1.mutex = σ.mutex) (h3 : σ1.threads = σ.threads) :
    Inv T n s0 σ1 where
  outside := by rw [h3]; exact hinv.outside
  owner := by rw [h2]; exact hinv.owner
  idle := by rw [h2, h3]; exact hinv.idle
  free := by rw [h1, h2]; exact hinv.free
  held := by rw [h1, h2, h3]; exact hinv.held

/-- A stack call completed by the owner of the mutex keeps the invariant. -/
theorem inv_holder {T n : Nat} {s0 : Mem} {σ : Sys} (hinv : Inv T n s0 σ) {t : Tid}
    (hown : σ.mutex = some t) {i : Nat} (hi : i < n) {cs rest : List Call} {e : Event}
    {s1 : Mem} (st : Status) (hrest : rest = cs ++ .unlock :: loopCalls (i + 1) (n - (i + 1)))
    (hcs : InCS s0 (loopEvents 0 (i + 1)) cs s1 ((σ.threads t).trace ++ [e])) :
    Inv T n s0 ⟨s1, σ.mutex, σ.advance t rest e, st⟩ where
  outside := by
    intro u hu
    have hut : u ≠ t := fun h => absurd (h ▸ hu) (Nat.not_le.2 (hinv.owner t hown))
    simp only [advance_other σ hut]
    exact hinv.outside u hu
  owner := hinv.owner
  idle := by
    intro u hu hne
    have hut : u ≠ t := fun h => hne (h ▸ hown)
    simp only [advance_other σ hut]
    exact hinv.idle u hu hne
  free := by
    intro h
    simp only at h
    rw [hown] at h
    cases h
  held := by
    intro u hu
    simp only at hu
    rw [hown] at hu
    cases hu
    exact ⟨i, cs, hi, by simp [advance_same, hrest], by simpa [advance_same] using hcs⟩

/-- Every step keeps the invariant. -/
theorem inv_step {T n : Nat} {s0 : Mem} {σ σ1 : Sys} (hinv : Inv T n s0 σ) {t : Tid} {m : Ptr}
    (hs : step σ t m = some σ1) : Inv T n s0 σ1 := by
  unfold step at hs
  cases hst : σ.status with
  | exited c => simp [hst] at hs
  | faulted => simp [hst] at hs
  | running =>
    simp only [hst] at hs
    by_cases hT : t < T
    swap
    · have := (hinv.outside t (Nat.le_of_not_lt hT)).1
      simp [this] at hs
    by_cases hown : σ.mutex = some t
    · obtain ⟨i, cs, hi, hcalls, hcs⟩ := hinv.held t hown
      cases cs with
      | nil =>
        simp only [List.nil_append] at hcalls
        simp only [hcalls, hown, if_true, Option.some.injEq] at hs
        subst hs
        obtain ⟨hmem, htr⟩ := hcs
        refine ⟨?_, ?_, ?_, ?_, ?_⟩
        · intro u hu
          have hut : u ≠ t := fun e => absurd (e ▸ hu) (Nat.not_le.2 hT)
          simp only [advance_other σ hut]
          exact hinv.outside u hu
        · intro u hu
          simp at hu
        · intro u hu _
          by_cases hut : u = t
          · subst hut
            refine ⟨i + 1, hi, ?_, ?_⟩
            · simp [advance_same]
            · simp [advance_same, htr]
          · simp only [advance_other σ hut]
            exact hinv.idle u hu (by rw [hown]; simpa using Ne.symm hut)
        · intro _
          exact hmem
        · intro u hu
          simp at hu
      | cons c cs =>
        simp only [List.cons_append] at hcalls
        cases c with
        | lock => exact absurd hcs (by simp [InCS])
        | unlock => exact absurd hcs (by simp [InCS])
        | is_empty => exact absurd hcs (by simp [InCS])
        | push v =>
          simp only [hcalls] at hs
          by_cases hbad : m ≠ NULL ∧ (σ.mem.heap m).isSome = true
          · simp [hbad] at hs
          · simp only [hbad, if_false] at hs
            by_cases hm : m = NULL
            · subst hm
              simp only [push_null, Option.some.injEq] at hs
              subst hs
              exact inv_of_same hinv rfl rfl rfl
            · simp only [push_ok hm, Option.some.injEq] at hs
              subst hs
              have hfresh : Fresh σ.mem.heap m := by
                refine ⟨hm, ?_⟩
                cases hh : σ.mem.heap m with
                | none => rfl
                | some x => exact absurd ⟨hm, by simp [hh]⟩ hbad
              exact inv_holder hinv hown hi _ rfl (hcs m hfresh)
        | pop =>
          obtain ⟨r, s1, hpop, hcs1⟩ := hcs
          simp only [hcalls, hpop, Option.some.injEq] at hs
          subst hs
          exact inv_holder hinv hown hi _ rfl hcs1
    · obtain ⟨i, hi, hcalls, htr⟩ := hinv.idle t hT hown
      cases hk : n - i with
      | zero =>
        rw [hk] at hcalls
        simp [hcalls, loopCalls] at hs
      | succ k =>
        rw [hk] at hcalls
        simp only [loopCalls, iterationCalls, List.cons_append, List.nil_append] at hcalls
        simp only [hcalls] at hs
        by_cases hfree : σ.mutex = none
        swap
        · simp [hfree] at hs
        simp only [hfree, if_true, Option.some.injEq] at hs
        subst hs
        have hk2 : k = n - (i + 1) := by omega
        refine ⟨?_, ?_, ?_, ?_, ?_⟩
        · intro u hu
          have hut : u ≠ t := fun e => absurd (e ▸ hu) (Nat.not_le.2 hT)
          simp only [advance_other σ hut]
          exact hinv.outside u hu
        · intro u hu
          simp only [Option.some.injEq] at hu
          subst hu
          exact hT
        · intro u hu hne
          have hut : u ≠ t := fun e => hne (by simp [e])
          simp only [advance_other σ hut]
          exact hinv.idle u hu (by simp [hfree])
        · intro h
          simp at h
        · intro u hu
          simp only [Option.some.injEq] at hu
          subst hu
          refine ⟨i, [.push i, .push (i + 1), .push (i + 2), .pop, .pop, .pop], by omega, ?_, ?_⟩
          · simp [advance_same, hk2]
          · simp only [advance_same, htr, loopEvents_append, Nat.zero_add]
            rw [hinv.free hfree]
            exact inCS_enter s0 _ _

/-- From a state that satisfies the invariant every step is one of `Moves`. -/
theorem step_moves {T n : Nat} {s0 : Mem} {σ σ1 : Sys} (hinv : Inv T n s0 σ) {t : Tid}
    {m : Ptr} (hs : step σ t m = some σ1) : Moves σ t m σ1 := by
  unfold step at hs
  cases hst : σ.status with
  | exited c => simp [hst] at hs
  | faulted => simp [hst] at hs
  | running =>
    simp only [hst] at hs
    by_cases hT : t < T
    swap
    · have := (hinv.outside t (Nat.le_of_not_lt hT)).1
      simp [this] at hs
    by_cases hown : σ.mutex = some t
    · obtain ⟨i, cs, hi, hcalls, hcs⟩ := hinv.held t hown
      cases cs with
      | nil =>
        simp only [List.nil_append] at hcalls
        simp only [hcalls, hown, if_true, Option.some.injEq] at hs
        exact Moves.unlock _ hown hcalls (by rw [← hs])
      | cons c cs =>
        simp only [List.cons_append] at hcalls
        cases c with
        | lock => exact absurd hcs (by simp [InCS])
        | unlock => exact absurd hcs (by simp [InCS])
        | is_empty => exact absurd hcs (by simp [InCS])
        | push v =>
          simp only [hcalls] at hs
          by_cases hbad : m ≠ NULL ∧ (σ.mem.heap m).isSome = true
          · simp [hbad] at hs
          · simp only [hbad, if_false] at hs
            by_cases hm : m = NULL
            · subst hm
              simp only [push_null, Option.some.injEq] at hs
              exact Moves.pushFail v _ hown hcalls rfl (by rw [← hs, hown])
            · simp only [push_ok hm, Option.some.injEq] at hs
              have hfresh : Fresh σ.mem.heap m := by
                refine ⟨hm, ?_⟩
                cases hh : σ.mem.heap m with
                | none => rfl
                | some x => exact absurd ⟨hm, by simp [hh]⟩ hbad
              exact Moves.push v _ hown hcalls hfresh (by rw [← hs, hown])
        | pop =>
          obtain ⟨r, s1, hpop, hcs1⟩ := hcs
          simp only [hcalls, hpop, Option.some.injEq] at hs
          exact Moves.pop r s1 _ hown hcalls hpop (by rw [← hs, hown])
    · obtain ⟨i, hi, hcalls, htr⟩ := hinv.idle t hT hown
      cases hk : n - i with
      | zero =>
        rw [hk] at hcalls
        simp [hcalls, loopCalls] at hs
      | succ k =>
        rw [hk] at hcalls
        simp only [loopCalls, iterationCalls, List.cons_append, List.nil_append] at hcalls
        simp only [hcalls] at hs
        by_cases hfree : σ.mutex = none
        swap
        · simp [hfree] at hs
        simp only [hfree, if_true, Option.some.injEq] at hs
        exact Moves.lock _ hfree hcalls (by rw [← hs])

/-- The invariant holds after every schedule. -/
theorem inv_run {T n : Nat} {s0 : Mem} (sch : List (Tid × Ptr)) {σ σ1 : Sys}
    (hinv : Inv T n s0 σ) (hr : run σ sch = some σ1) : Inv T n s0 σ1 := by
  induction sch generalizing σ with
  | nil =>
    simp only [run, Option.some.injEq] at hr
    exact hr ▸ hinv
  | cons e sch ih =>
    obtain ⟨t, m⟩ := e
    simp only [run] at hr
    cases hs : step σ t m with
    | none => simp [hs] at hr
    | some σ2 =>
      simp only [hs, Option.some_bind] at hr
      exact ih (inv_step hinv hs) hr

/-- With `malloc` succeeding the process keeps running. -/
theorem moves_running {σ σ1 : Sys} {t : Tid} {m : Ptr} (h : Moves σ t m σ1) (hm : m ≠ NULL) :
    σ1.status = .running := by
  cases h with
  | lock rest _ _ h1 => rw [h1]
  | unlock rest _ _ h1 => rw [h1]
  | push v rest _ _ _ h1 => rw [h1]
  | pushFail v rest _ _ h0 h1 => exact absurd h0 hm
  | pop r s1 rest _ _ _ h1 => rw [h1]

/-- Completing a call takes one call off the total. -/
theorem remaining_advance (T : Nat) (σ : Sys) {t : Tid} (ht : t < T) {c : Call}
    {rest : List Call} (e : Event) (hc : (σ.threads t).calls = c :: rest) (mem : Mem)
    (mutex : Option Tid) (st : Status) :
    remaining T ⟨mem, mutex, σ.advance t rest e, st⟩ + 1 = remaining T σ := by
  unfold remaining
  have hmem : t ∈ Finset.range T := Finset.mem_range.2 ht
  rw [← Finset.add_sum_erase _ _ hmem,
    ← Finset.add_sum_erase (Finset.range T) (fun t => (σ.threads t).calls.length) hmem]
  simp only [advance_same, hc, List.length_cons]
  have : ∑ x in (Finset.range T).erase t, ((σ.advance t rest e) x).calls.length =
      ∑ x in (Finset.range T).erase t, (σ.threads x).calls.length := by
    apply Finset.sum_congr rfl
    intro x hx
    rw [advance_other σ (Finset.ne_of_mem_erase hx)]
  rw [this]
  omega

/-- A thread that can move is one of the `T` threads. -/
theorem moves_lt {T n : Nat} {s0 : Mem} {σ σ1 : Sys} (hinv : Inv T n s0 σ) {t : Tid} {m : Ptr}
    (h : Moves σ t m σ1) : t < T := by
  by_contra hT
  have h0 := (hinv.outside t (Nat.le_of_not_lt hT)).1
  cases h with
  | lock rest _ hc _ => rw [h0] at hc; cases hc
  | unlock rest _ hc _ => rw [h0] at hc; cases hc
  | push v rest _ hc _ _ => rw [h0] at hc; cases hc
  | pushFail v rest _ hc _ _ => rw [h0] at hc; cases hc
  | pop r s1 rest _ hc _ _ => rw [h0] at hc; cases hc

/-- With `malloc` succeeding every step takes one call off the total. -/
theorem moves_remaining {T n : Nat} {s0 : Mem} {σ σ1 : Sys} (hinv : Inv T n s0 σ) {t : Tid}
    {m : Ptr} (h : Moves σ t m σ1) (hm : m ≠ NULL) : remaining T σ1 + 1 = remaining T σ := by
  have hT := moves_lt hinv h
  cases h with
  | lock rest _ hc h1 => rw [h1]; exact remaining_advance T σ hT _ hc _ _ _
  | unlock rest _ hc h1 => rw [h1]; exact remaining_advance T σ hT _ hc _ _ _
  | push v rest _ hc _ h1 => rw [h1]; exact remaining_advance T σ hT _ hc _ _ _
  | pushFail v rest _ _ h0 h1 => exact absurd h0 hm
  | pop r s1 rest _ hc _ h1 => rw [h1]; exact remaining_advance T σ hT _ hc _ _ _

theorem finiteHeap_update {h : Heap} (hf : FiniteHeap h) (a : Ptr) (v : Option StackNode) :
    FiniteHeap (Function.update h a v) := by
  obtain ⟨B, hB⟩ := hf
  refine ⟨max B (a + 1), fun q hq => ?_⟩
  have h1 : B ≤ q := le_trans (le_max_left _ _) hq
  have h2 : a + 1 ≤ q := le_trans (le_max_right _ _) hq
  have h3 : q ≠ a := by omega
  simp [Function.update, h3, hB q h1]

theorem finiteHeap_pop {s s1 : Mem} {r : value_t} (hf : FiniteHeap s.heap)
    (hp : pop s = .ret r s1) : FiniteHeap s1.heap := by
  by_cases ht : s.top = NULL
  · rw [pop_empty ht] at hp
    cases hp
    exact hf
  · cases hn : s.heap s.top with
    | none => simp [pop, is_empty, Outcome.andThen, ht, hn] at hp
    | some node =>
      rw [pop_nonempty ht hn] at hp
      cases hp
      exact finiteHeap_update hf _ _

/-- A heap with finitely many live blocks has a fresh address. -/
theorem finiteHeap_fresh {h : Heap} (hf : FiniteHeap h) : ∃ m, Fresh h m := by
  obtain ⟨B, hB⟩ := hf
  exact ⟨B + 1, Nat.succ_ne_zero B, hB _ (Nat.le_succ B)⟩

theorem moves_finiteHeap {σ σ1 : Sys} {t : Tid} {m : Ptr} (h : Moves σ t m σ1)
    (hf : FiniteHeap σ.mem.heap) : FiniteHeap σ1.mem.heap := by
  cases h with
  | lock rest _ _ h1 => rw [h1]; exact hf
  | unlock rest _ _ h1 => rw [h1]; exact hf
  | push v rest _ _ _ h1 => rw [h1]; exact finiteHeap_update hf _ _
  | pushFail v rest _ _ _ h1 => rw [h1]; exact hf
  | pop r s1 rest _ _ hp h1 => rw [h1]; exact finiteHeap_pop hf hp

theorem loopCalls_ne_nil {i k : Nat} (h : loopCalls i k ≠ []) :
    ∃ j, k = j + 1 ∧ loopCalls i k = .lock :: .push i :: .push (i + 1) :: .push (i + 2) ::
      .pop :: .pop :: .pop :: .unlock :: loopCalls (i + 1) j := by
  cases k with
  | zero => exact absurd rfl h
  | succ j => exact ⟨j, rfl, rfl⟩

/-- No deadlock: while some thread has a call left, some thread can make a
step in which `malloc` succeeds. -/
theorem progress {T n : Nat} {s0 : Mem} {σ : Sys} (hinv : Inv T n s0 σ)
    (hst : σ.status = .running) (hfin : FiniteHeap σ.mem.heap)
    (hleft : ∃ t, t < T ∧ (σ.threads t).calls ≠ []) :
    ∃ t m σ1, m ≠ NULL ∧ step σ t m = some σ1 := by
  cases hmx : σ.mutex with
  | none =>
    obtain ⟨t, hT, hne⟩ := hleft
    obtain ⟨i, _, hcalls, _⟩ := hinv.idle t hT (by rw [hmx]; simp)
    rw [hcalls] at hne
    obtain ⟨j, _, hj⟩ := loopCalls_ne_nil hne
    rw [hj] at hcalls
    have h1 : (1 : Ptr) ≠ NULL := by decide
    exact ⟨t, 1, by simp [step, hst, hcalls, hmx, h1]⟩
  | some u =>
    obtain ⟨i, cs, _, hcalls, hcs⟩ := hinv.held u hmx
    cases cs with
    | nil =>
      simp only [List.nil_append] at hcalls
      have h1 : (1 : Ptr) ≠ NULL := by decide
      exact ⟨u, 1, by simp [step, hst, hcalls, hmx, h1]⟩
    | cons c cs =>
      simp only [List.cons_append] at hcalls
      cases c with
      | lock => exact absurd hcs (by simp [InCS])
      | unlock => exact absurd hcs (by simp [InCS])
      | is_empty => exact absurd hcs (by simp [InCS])
      | push v =>
        obtain ⟨m, hm, hfree⟩ := finiteHeap_fresh hfin
        exact ⟨u, m, by simp [step, hst, hcalls, push_ok hm, hfree, hm]⟩
      | pop =>
        obtain ⟨r, s1, hpop, _⟩ := hcs
        have h1 : (1 : Ptr) ≠ NULL := by decide
        exact ⟨u, 1, by simp [step, hst, hcalls, hpop, h1]⟩

/-- When every thread has made all its calls, the run is completed. -/
theorem completed_of_done {T n : Nat} {σ : Sys} (hinv : Inv T n Mem.init σ)
    (hst : σ.status = .running) (hdone : ∀ t, t < T → (σ.threads t).calls = []) :
    Completed T n σ := by
  have hfree : σ.mutex = none := by
    cases hmx : σ.mutex with
    | none => rfl
    | some u =>
      obtain ⟨i, cs, _, hcalls, _⟩ := hinv.held u hmx
      rw [hdone u (hinv.owner u hmx)] at hcalls
      simp at hcalls
  have hmem := hinv.free hfree
  refine ⟨hst, by rw [hmem]; rfl, fun q => by rw [hmem]; rfl, hfree, ?_⟩
  intro t hT
  obtain ⟨i, hi, hcalls, htr⟩ := hinv.idle t hT (by rw [hfree]; simp)
  refine ⟨hdone t hT, ?_⟩
  rw [hdone t hT] at hcalls
  cases hk : n - i with
  | zero =>
    have : i = n := by omega
    rw [htr, this]
  | succ k =>
    rw [hk] at hcalls
    simp [loopCalls, iterationCalls] at hcalls

theorem loopEvents_add (a i j : Nat) :
    loopEvents a (i + j) = loopEvents a i ++ loopEvents (a + i) j := by
  induction i generalizing a with
  | zero => simp [loopEvents]
  | succ i ih =>
    have e1 : i + 1 + j = (i + j) + 1 := by omega
    have e2 : a + (i + 1) = a + 1 + i := by omega
    rw [e1, loopEvents, ih (a + 1), loopEvents, List.append_assoc, e2]

/-- The trace of a thread inside an iteration is a prefix of the trace it will
have after the unlock. -/
theorem inCS_prefix {s0 : Mem} {done : List Event} (cs : List Call) {mem : Mem}
    {tr : List Event} (h : InCS s0 done cs mem tr) (hfin : FiniteHeap mem.heap) :
    tr <+: done := by
  induction cs generalizing mem tr with
  | nil => exact ⟨[.unlock], h.2⟩
  | cons c cs ih =>
    cases c with
    | lock => exact absurd h (by simp [InCS])
    | unlock => exact absurd h (by simp [InCS])
    | is_empty => exact absurd h (by simp [InCS])
    | push v =>
      obtain ⟨m, hm⟩ := finiteHeap_fresh hfin
      exact (List.prefix_append _ _).trans (ih (h m hm) (finiteHeap_update hfin _ _))
    | pop =>
      obtain ⟨r, s1, hpop, h1⟩ := h
      exact (List.prefix_append _ _).trans (ih h1 (finiteHeap_pop hfin hpop))

/-- Every thread's trace is a prefix of the trace of `n` iterations whose pops
return the pushed values in reverse. -/
theorem trace_prefix {T n : Nat} {s0 : Mem} {σ : Sys} (hinv : Inv T n s0 σ)
    (hfin : FiniteHeap σ.mem.heap) (t : Tid) : (σ.threads t).trace <+: loopEvents 0 n := by
  by_cases hT : t < T
  swap
  · rw [(hinv.outside t (Nat.le_of_not_lt hT)).2]
    exact List.nil_prefix
  by_cases hown : σ.mutex = some t
  · obtain ⟨i, cs, hi, _, hcs⟩ := hinv.held t hown
    have h1 := inCS_prefix cs hcs hfin
    have h2 : loopEvents 0 n = loopEvents 0 (i + 1) ++ loopEvents (0 + (i + 1)) (n - (i + 1)) := by
      rw [← loopEvents_add]
      congr 1
      omega
    rw [h2]
    exact h1.trans (List.prefix_append _ _)
  · obtain ⟨i, hi, _, htr⟩ := hinv.idle t hT hown
    have h2 : loopEvents 0 n = loopEvents 0 i ++ loopEvents (0 + i) (n - i) := by
      rw [← loopEvents_add]
      congr 1
      omega
    rw [h2, htr]
    exact List.prefix_append _ _

theorem countPush_loopEvents (i k : Nat) : countPush (loopEvents i k) = 3 * k := by
  induction k generalizing i with
  | zero => rfl
  | succ k ih =>
    have := ih (i + 1)
    unfold countPush at this ⊢
    simp only [loopEvents, iterationEvents, List.cons_append, List.nil_append,
      List.countP_cons, this]
    simp
    omega

theorem countPop_loopEvents (i k : Nat) : countPop (loopEvents i k) = 3 * k := by
  induction k generalizing i with
  | zero => rfl
  | succ k ih =>
    have := ih (i + 1)
    unfold countPop at this ⊢
    simp only [loopEvents, iterationEvents, List.cons_append, List.nil_append,
      List.countP_cons, this]
    simp
    omega

theorem countUnlock_loopEvents (i k : Nat) : countUnlock (loopEvents i k) = k := by
  induction k generalizing i with
  | zero => rfl
  | succ k ih =>
    have := ih (i + 1)
    unfold countUnlock at this ⊢
    simp only [loopEvents, iterationEvents, List.cons_append, List.nil_append,
      List.countP_cons, this]
    simp

theorem good_start (T n : Nat) : Good T n (Sys.start T n Mem.init) :=
  ⟨inv_start T n Mem.init, rfl, ⟨0, fun _ _ => rfl⟩⟩

theorem good_step {T n : Nat} {σ σ1 : Sys} (hg : Good T n σ) {t : Tid} {m : Ptr}
    (hs : step σ t m = some σ1) (hm : m ≠ NULL) :
    Good T n σ1 ∧ remaining T σ1 + 1 = remaining T σ := by
  have hmv := step_moves hg.inv hs
  exact ⟨⟨inv_step hg.inv hs, moves_running hmv hm, moves_finiteHeap hmv hg.finite⟩,
    moves_remaining hg.inv hmv hm⟩

theorem good_run {T n : Nat} (sch : List (Tid × Ptr)) {σ σ1 : Sys} (hg : Good T n σ)
    (hm : ∀ e ∈ sch, e.2 ≠ NULL) (hr : run σ sch = some σ1) :
    Good T n σ1 ∧ sch.length + remaining T σ1 = remaining T σ := by
  induction sch generalizing σ with
  | nil =>
    simp only [run, Option.some.injEq] at hr
    subst hr
    exact ⟨hg, by simp⟩
  | cons e sch ih =>
    obtain ⟨t, m⟩ := e
    simp only [run] at hr
    cases hs : step σ t m with
    | none => simp [hs] at hr
    | some σ2 =>
      simp only [hs, Option.some_bind] at hr
      obtain ⟨hg2, hrem⟩ := good_step hg hs (hm (t, m) (List.mem_cons_self _ _))
      obtain ⟨hg1, hrem1⟩ := ih hg2 (fun e he => hm e (List.mem_cons_of_mem _ he)) hr
      refine ⟨hg1, ?_⟩
      simp only [List.length_cons]
      omega

theorem run_append (σ : Sys) (a b : List (Tid × Ptr)) :
    run σ (a ++ b) = (run σ a).bind fun σ1 => run σ1 b := by
  induction a generalizing σ with
  | nil => simp [run]
  | cons e a ih =>
    obtain ⟨t, m⟩ := e
    simp only [List.cons_append, run]
    cases step σ t m with
    | none => rfl
    | some σ2 => simp [ih]

/-- Every run in which `malloc` has not failed can be continued to a completed one. -/
theorem good_extend {T n : Nat} (k : Nat) {σ : Sys} (hg : Good T n σ)
    (hk : remaining T σ = k) :
    ∃ sch σ2, (∀ e ∈ sch, e.2 ≠ NULL) ∧ run σ sch = some σ2 ∧ Completed T n σ2 := by
  induction k generalizing σ with
  | zero =>
    refine ⟨[], σ, by simp, rfl, completed_of_done hg.inv hg.running ?_⟩
    intro t hT
    unfold remaining at hk
    have := (Finset.sum_eq_zero_iff.1 hk) t (Finset.mem_range.2 hT)
    exact List.length_eq_zero.1 this
  | succ k ih =>
    have hleft : ∃ t, t < T ∧ (σ.threads t).calls ≠ [] := by
      by_contra hno
      have hall : ∀ t ∈ Finset.range T, (σ.threads t).calls.length = 0 := by
        intro t ht
        by_contra h0
        exact hno ⟨t, Finset.mem_range.1 ht, fun e => h0 (by rw [e]; rfl)⟩
      unfold remaining at hk
      rw [Finset.sum_eq_zero hall] at hk
      cases hk
    obtain ⟨t, m, σ1, hm, hs⟩ := progress hg.inv hg.running hg.finite hleft
    obtain ⟨hg1, hrem⟩ := good_step hg hs hm
    obtain ⟨sch, σ2, hsch, hrun, hc⟩ := ih hg1 (by omega)
    refine ⟨(t, m) :: sch, σ2, ?_, ?_, hc⟩
    · intro e he
      rcases List.mem_cons.1 he with rfl | he
      · exact hm
      · exact hsch e he
    · simp [run, hs, hrun]

theorem length_loopCalls (i k : Nat) : (loopCalls i k).length = 8 * k := by
  induction k generalizing i with
  | zero => rfl
  | succ k ih => simp [loopCalls, iterationCalls, ih]; omega

theorem remaining_start (T n : Nat) (s0 : Mem) :
    remaining T (Sys.start T n s0) = T * (8 * n) := by
  unfold remaining
  have : ∀ t ∈ Finset.range T, ((Sys.start T n s0).threads t).calls.length = 8 * n := by
    intro t ht
    simp [Sys.start, Finset.mem_range.1 ht, testStack, length_loopCalls]
  rw [Finset.sum_congr rfl this]
  simp

/-- C7. Demonstration run: from the empty stack, with `NUM_THREADS = 10`
threads running `testStack` with `ITERATIONS = 500`, after any schedule in
which `malloc` has not failed: the process is running; the steps made and the
calls left add up to the 10 * 8 * 500 calls of the program, so no run is
longer; every thread's trace is a prefix of the 500 iterations in which the
pops of iteration `i` return `i + 2`, `i + 1`, `i`; while a thread has a call
left some thread can move (no deadlock); once no call is left the run is
completed: every thread has the full trace, with 500 unlocks, 1500 pushes and
1500 pops, the mutex is free, `top` is `NULL` and no block is live; and the
run can always be continued to such a completed state. -/
theorem C7_demonstration_run (sch : List (Tid × Ptr)) (σ : Sys)
    (hm : ∀ e ∈ sch, e.2 ≠ NULL) (hr : run Sys.main sch = some σ) :
    σ.status = .running ∧
    sch.length + remaining NUM_THREADS σ = NUM_THREADS * (8 * ITERATIONS) ∧
    (∀ t, (σ.threads t).trace <+: loopEvents 0 ITERATIONS) ∧
    ((∃ t, t < NUM_THREADS ∧ (σ.threads t).calls ≠ []) →
      ∃ t m σ1, m ≠ NULL ∧ step σ t m = some σ1) ∧
    ((∀ t, t < NUM_THREADS → (σ.threads t).calls = []) →
      Completed NUM_THREADS ITERATIONS σ) ∧
    (∃ sch2 σ2, (∀ e ∈ sch2, e.2 ≠ NULL) ∧ run σ sch2 = some σ2 ∧
      Completed NUM_THREADS ITERATIONS σ2) ∧
    countUnlock (loopEvents 0 ITERATIONS) = 500 ∧
    countPush (loopEvents 0 ITERATIONS) = 1500 ∧
    countPop (loopEvents 0 ITERATIONS) = 1500 := by
  obtain ⟨hg, hrem⟩ := good_run sch (good_start NUM_THREADS ITERATIONS) hm hr
  rw [remaining_start] at hrem
  exact ⟨hg.running, hrem, trace_prefix hg.inv hg.finite,
    progress hg.inv hg.running hg.finite, completed_of_done hg.inv hg.running,
    good_extend _ hg rfl, countUnlock_loopEvents 0 ITERATIONS,
    countPush_loopEvents 0 ITERATIONS, countPop_loopEvents 0 ITERATIONS⟩

/-- C7 after `exampleSchedule`: thread 3 and then thread 0 have run their
first iteration. -/
theorem C7_demonstration_run_witness :
    (∀ e ∈ exampleSchedule, e.2 ≠ NULL) ∧
    run Sys.main exampleSchedule = some (Sys.main.after exampleSchedule) ∧
    ((Sys.main.after exampleSchedule).status = .running ∧
    exampleSchedule.length + remaining NUM_THREADS (Sys.main.after exampleSchedule) =
      NUM_THREADS * (8 * ITERATIONS) ∧
    (∀ t, ((Sys.main.after exampleSchedule).threads t).trace <+: loopEvents 0 ITERATIONS) ∧
    ((∃ t, t < NUM_THREADS ∧ ((Sys.main.after exampleSchedule).threads t).calls ≠ []) →
      ∃ t m σ1, m ≠ NULL ∧ step (Sys.main.after exampleSchedule) t m = some σ1) ∧
    ((∀ t, t < NUM_THREADS → ((Sys.main.after exampleSchedule).threads t).calls = []) →
      Completed NUM_THREADS ITERATIONS (Sys.main.after exampleSchedule)) ∧
    (∃ sch2 σ2, (∀ e ∈ sch2, e.2 ≠ NULL) ∧
      run (Sys.main.after exampleSchedule) sch2 = some σ2 ∧
      Completed NUM_THREADS ITERATIONS σ2) ∧
    countUnlock (loopEvents 0 ITERATIONS) = 500 ∧
    countPush (loopEvents 0 ITERATIONS) = 1500 ∧
    countPop (loopEvents 0 ITERATIONS) = 1500) :=
  ⟨by decide, rfl, C7_demonstration_run exampleSchedule _ (by decide) rfl⟩

/-- C8. Mutual exclusion: in every state the threads running `testStack` can
reach (any number of threads, any loop bound, any initial stack memory `s0`,
any schedule, any results of `malloc`), if the mutex is free the stack memory
is exactly `s0`, so it holds the elements it held before the run and has the
same element count (none at all when `s0` is the program's initial empty
stack); a thread that acquires the mutex finds the memory `s0`; and a step
that changes the stack memory is made by the thread that owns the mutex,
before and after the step. -/
theorem C8_mutual_exclusion (T n : Nat) (s0 : Mem) (sch : List (Tid × Ptr)) (σ : Sys)
    (hr : run (Sys.start T n s0) sch = some σ) :
    (σ.mutex = none →
      σ.mem = s0 ∧
      (∀ xs, Holds s0 xs → Holds σ.mem xs ∧ ∀ ys, Holds σ.mem ys → ys.length = xs.length) ∧
      (s0 = Mem.init → ∀ ys, Holds σ.mem ys → ys.length = 0)) ∧
    (∀ t m σ1, step σ t m = some σ1 → σ.mutex ≠ some t → σ1.mutex = some t → σ1.mem = s0) ∧
    (∀ t m σ1, step σ t m = some σ1 → σ1.mem ≠ σ.mem →
      σ.mutex = some t ∧ σ1.mutex = some t) := by
  have hinv : Inv T n s0 σ := inv_run sch (inv_start T n s0) hr
  refine ⟨?_, ?_, ?_⟩
  · intro hfree
    have hmem := hinv.free hfree
    refine ⟨hmem, ?_, ?_⟩
    · intro xs hx
      rw [hmem]
      exact ⟨hx, fun ys hy => by rw [holds_unique hy hx]⟩
    · intro h0 ys hy
      rw [hmem, h0] at hy
      rw [holds_unique hy ⟨[], Chain.nil, rfl⟩]
      rfl
  · intro t m σ1 hs hnot hnow
    cases step_moves hinv hs with
    | lock rest hfree _ h1 => rw [h1]; exact hinv.free hfree
    | unlock rest hown _ h1 => exact absurd hown hnot
    | push v rest hown _ _ h1 => exact absurd hown hnot
    | pushFail v rest hown _ _ h1 => exact absurd hown hnot
    | pop r s1 rest hown _ _ h1 => exact absurd hown hnot
  · intro t m σ1 hs hne
    cases step_moves hinv hs with
    | lock rest hfree _ h1 => rw [h1] at hne; exact absurd rfl hne
    | unlock rest hown _ h1 => rw [h1] at hne; exact absurd rfl hne
    | push v rest hown _ _ h1 => rw [h1]; exact ⟨hown, rfl⟩
    | pushFail v rest hown _ _ h1 => rw [h1] at hne; exact absurd rfl hne
    | pop r s1 rest hown _ _ h1 => rw [h1]; exact ⟨hown, rfl⟩

/-- C8 on the program itself, after `exampleSchedule`. -/
theorem C8_mutual_exclusion_witness :
    run (Sys.start NUM_THREADS ITERATIONS Mem.init) exampleSchedule =
      some (Sys.main.after exampleSchedule) ∧
    ((Sys.main.after exampleSchedule).mutex
        = none →
      (Sys.main.after exampleSchedule).mem
        = Mem.init ∧
      (∀ xs, Holds Mem.init xs →
        Holds (Sys.main.after exampleSchedule).mem xs ∧
        ∀ ys, Holds (Sys.main.after exampleSchedule).mem ys →
          ys.length = xs.length) ∧
      (Mem.init = Mem.init → ∀ ys, Holds (Sys.main.after exampleSchedule).mem ys →
        ys.length = 0)) ∧
    (∀ t m σ1, step (Sys.main.after exampleSchedule) t m
        = some σ1 →
      (Sys.main.after exampleSchedule).mutex
        ≠ some t → σ1.mutex = some t → σ1.mem = Mem.init) ∧
    (∀ t m σ1, step (Sys.main.after exampleSchedule) t m
        = some σ1 →
      σ1.mem ≠ (Sys.main.after exampleSchedule).mem →
      (Sys.main.after exampleSchedule).mutex
        = some t ∧ σ1.mutex = some t) :=
  ⟨rfl, C8_mutual_exclusion NUM_THREADS ITERATIONS Mem.init exampleSchedule _ rfl⟩

/-- C9, refuted as stated. Thread 0 runs `testStack`; thread 1 calls
`is_empty`, `pop` and `push(7)` without locking. After thread 0 has locked and
pushed 0 it owns the mutex; the three calls of thread 1 nevertheless run, see
and change the stack (`is_empty` returns 0, `pop` takes the 0, `push` adds 7)
and leave thread 0 the owner: none of them waited for or acquired the mutex.
Thread 0 then pops 2, 1 and the 7 of thread 1 instead of its own 0. -/
theorem C9_internal_locking_counterexample :
    run raceStart (raceSchedule.take 2) = some (raceStart.after (raceSchedule.take 2)) ∧
    (raceStart.after (raceSchedule.take 2)).mutex = some 0 ∧
    ((raceStart.after (raceSchedule.take 2)).threads 1).calls = [.is_empty, .pop, .push 7] ∧
    run raceStart (raceSchedule.take 5) = some (raceStart.after (raceSchedule.take 5)) ∧
    (raceStart.after (raceSchedule.take 5)).mutex = some 0 ∧
    ((raceStart.after (raceSchedule.take 5)).threads 1).trace =
      [.is_empty 0, .pop 0, .push 7] ∧
    run raceStart raceSchedule = some (raceStart.after raceSchedule) ∧
    ((raceStart.after raceSchedule).threads 0).trace =
      [.lock, .push 0, .push 1, .push 2, .pop 2, .pop 1, .pop 7, .unlock] ∧
    ((raceStart.after raceSchedule).threads 0).trace ≠ iterationEvents 0 :=
  ⟨rfl, by decide, by decide, rfl, by decide, by decide, rfl, by decide, by decide⟩

/-- A step that is a call of a stack function leaves the mutex as it is. -/
theorem step_onStack_mutex {τ τ1 : Sys} {t : Tid} {m : Ptr} {c : Call} {rest : List Call}
    (hc : (τ.threads t).calls = c :: rest) (hon : c.onStack = true)
    (hs : step τ t m = some τ1) : τ1.mutex = τ.mutex := by
  unfold step at hs
  cases hst : τ.status with
  | exited code => simp [hst] at hs
  | faulted => simp [hst] at hs
  | running =>
    simp only [hst, hc] at hs
    cases c with
    | lock => simp [Call.onStack] at hon
    | unlock => simp [Call.onStack] at hon
    | push v =>
      by_cases hbad : m ≠ NULL ∧ (τ.mem.heap m).isSome = true
      · simp [hbad] at hs
      · simp only [hbad, if_false] at hs
        cases hp : push m v τ.mem <;> simp only [hp, Option.some.injEq] at hs <;>
          rw [← hs]
    | pop =>
      cases hp : pop τ.mem <;> simp only [hp, Option.some.injEq] at hs <;> rw [← hs]
    | is_empty =>
      simp only [is_empty, Option.some.injEq] at hs
      rw [← hs]

/-- Whether a call of a stack function can be made does not depend on the mutex. -/
theorem step_onStack_enabled (τ : Sys) (t : Tid) (m : Ptr) {c : Call} {rest : List Call}
    (hc : (τ.threads t).calls = c :: rest) (hon : c.onStack = true) (mx : Option Tid) :
    (step { τ with mutex := mx } t m).isSome = (step τ t m).isSome := by
  unfold step
  cases hst : τ.status with
  | exited code => simp
  | faulted => simp
  | running =>
    simp only [hc]
    cases c with
    | lock => simp [Call.onStack] at hon
    | unlock => simp [Call.onStack] at hon
    | push v =>
      by_cases hbad : m ≠ NULL ∧ (τ.mem.heap m).isSome = true
      · simp [hbad]
      · simp only [hbad, if_false]
        cases hp : push m v τ.mem <;> rfl
    | pop =>
      cases hp : pop τ.mem <;> rfl
    | is_empty => rfl

/-- C9, amended. The functions `push`, `pop` and `is_empty` do not operate on
the mutex: a call of one of them leaves the mutex as it is, and whether the
call can be made does not depend on who owns the mutex. The calls are
serialised by the caller: in every state the threads running `testStack` can
reach, a thread whose next call is a stack function owns the mutex, which it
acquired at the start of the iteration and releases at its end. -/
theorem C9_caller_locking (T n : Nat) (s0 : Mem) (sch : List (Tid × Ptr)) (σ : Sys)
    (hr : run (Sys.start T n s0) sch = some σ) :
    (∀ t c rest, (σ.threads t).calls = c :: rest → c.onStack = true → σ.mutex = some t) ∧
    (∀ (τ τ1 : Sys) t m c rest, (τ.threads t).calls = c :: rest → c.onStack = true →
      step τ t m = some τ1 → τ1.mutex = τ.mutex) ∧
    (∀ (τ : Sys) t m c rest mx, (τ.threads t).calls = c :: rest → c.onStack = true →
      (step { τ with mutex := mx } t m).isSome = (step τ t m).isSome) := by
  have hinv : Inv T n s0 σ := inv_run sch (inv_start T n s0) hr
  refine ⟨?_, ?_, ?_⟩
  · intro t c rest hc hon
    by_contra hown
    by_cases hT : t < T
    · obtain ⟨i, _, hcalls, _⟩ := hinv.idle t hT hown
      have hne : loopCalls i (n - i) ≠ [] := by rw [← hcalls, hc]; simp
      obtain ⟨j, _, hj⟩ := loopCalls_ne_nil hne
      rw [hcalls, hj] at hc
      cases hc
      simp [Call.onStack] at hon
    · rw [(hinv.outside t (Nat.le_of_not_lt hT)).1] at hc
      cases hc
  · intro τ τ1 t m c rest hc hon hs
    exact step_onStack_mutex hc hon hs
  · intro τ t m c rest mx hc hon
    exact step_onStack_enabled τ t m hc hon mx

/-- C9, amended, on the program after the first two steps of
`exampleSchedule`: thread 3 owns the mutex and is about to push. -/
theorem C9_caller_locking_witness :
    run (Sys.start NUM_THREADS ITERATIONS Mem.init) (exampleSchedule.take 2) =
      some (Sys.main.after (exampleSchedule.take 2)) ∧
    ((∀ t c rest, ((Sys.main.after (exampleSchedule.take 2)).threads t).calls = c :: rest →
      c.onStack = true → (Sys.main.after (exampleSchedule.take 2)).mutex = some t) ∧
    (∀ (τ τ1 : Sys) t m c rest, (τ.threads t).calls = c :: rest → c.onStack = true →
      step τ t m = some τ1 → τ1.mutex = τ.mutex) ∧
    (∀ (τ : Sys) t m c rest mx, (τ.threads t).calls = c :: rest → c.onStack = true →
      (step { τ with mutex := mx } t m).isSome = (step τ t m).isSome)) :=
  ⟨rfl, C9_caller_locking NUM_THREADS ITERATIONS Mem.init (exampleSchedule.take 2) _ rfl⟩

/-- The statements of a successful `push`, one after another. -/
theorem pushTrace_ok (s : Mem) (v : value_t) (junk : StackNode) {m : Ptr} (hm : m ≠ NULL) :
    pushTrace m junk v s =
      ([⟨Function.update s.heap m (some junk), s.top⟩,
        ⟨Function.update s.heap m (some ⟨v, junk.next⟩), s.top⟩,
        ⟨Function.update s.heap m (some ⟨v, s.top⟩), s.top⟩,
        ⟨Function.update s.heap m (some ⟨v, s.top⟩), m⟩],
       .ret () ⟨Function.update s.heap m (some ⟨v, s.top⟩), m⟩) := by
  simp [pushTrace, mallocNode, hm, pushStmts, runStmts, store]

/-- C10. Allocation failure is atomic. When `malloc` returns `NULL`, `push`
ends in `exit(EXIT_FAILURE)`, a failure status, and the memory at that point
is the memory before the call: no statement after the `malloc` is executed,
`top` and every block are as they were; in the running program the step leaves
the stack memory, the mutex and the threads as they were and the process
exited. When `malloc` succeeds with a fresh block `m`, the statements run in
this order: the block becomes live, its `data` is written, its `next` is
written, and only then `top` is set; until that last statement `top` is
unchanged, before it the node at `m` already holds `v` and the previous `top`,
and no block other than `m` ever changes. -/
theorem C10_allocation_failure (s : Mem) (v : value_t) (junk : StackNode) :
    push NULL v s = .exit EXIT_FAILURE s ∧ EXIT_FAILURE ≠ 0 ∧
    pushTrace NULL junk v s = ([s], .exit EXIT_FAILURE s) ∧
    (∀ (σ : Sys) t rest, σ.status = .running → (σ.threads t).calls = .push v :: rest →
      step σ t NULL = some ⟨σ.mem, σ.mutex, σ.threads, .exited EXIT_FAILURE⟩) ∧
    ∀ m, Fresh s.heap m →
      ∃ s1 s2 s3 s4, pushTrace m junk v s = ([s1, s2, s3, s4], .ret () s4) ∧
        push m v s = .ret () s4 ∧
        s1.top = s.top ∧ s2.top = s.top ∧ s3.top = s.top ∧ s4.top = m ∧
        s1.heap m = some junk ∧ s2.heap m = some ⟨v, junk.next⟩ ∧
        s3.heap m = some ⟨v, s.top⟩ ∧ s4.heap = s3.heap ∧
        ∀ q, q ≠ m → s1.heap q = s.heap q ∧ s2.heap q = s.heap q ∧
          s3.heap q = s.heap q ∧ s4.heap q = s.heap q := by
  refine ⟨push_null v s, by decide, by simp [pushTrace, mallocNode], ?_, ?_⟩
  · intro σ t rest hst hc
    simp [step, hst, hc, push_null]
  · rintro m ⟨hm, _⟩
    refine ⟨_, _, _, _, pushTrace_ok s v junk hm, push_ok hm v s, rfl, rfl, rfl, rfl,
      by simp, by simp, by simp, rfl, ?_⟩
    intro q hq
    simp [Function.update, hq]

/-! ## Lock discipline -/

theorem lockPattern_lock (k : Nat) : lockPattern k false ++ [.lock] = lockPattern k true := by
  induction k with
  | zero => rfl
  | succ k ih => simp [lockPattern, ih]

theorem lockPattern_unlock (k : Nat) :
    lockPattern k true ++ [.unlock] = lockPattern (k + 1) false := by
  induction k with
  | zero => rfl
  | succ k ih =>
    rw [lockPattern, List.cons_append, List.cons_append, ih]
    rfl

theorem lockInv_start (T n : Nat) (s0 : Mem) : LockInv (Sys.start T n s0) := by
  intro t
  refine ⟨0, ?_⟩
  by_cases h : t < T <;> simp [Sys.start, h, lockEvents, lockPattern]

/-- Every step from a state that satisfies the invariant keeps the lock discipline. -/
theorem lockInv_moves {σ σ1 : Sys} {t : Tid} {m : Ptr} (h : Moves σ t m σ1)
    (hl : LockInv σ) : LockInv σ1 := by
  intro u
  obtain ⟨k, hk⟩ := hl u
  cases h with
  | lock rest hfree hc h1 =>
    subst h1
    by_cases hu : u = t
    · subst hu
      refine ⟨k, ?_⟩
      simp only [advance_same, decide_True]
      rw [hfree] at hk
      simp only [reduceCtorEq, decide_False] at hk
      rw [← lockPattern_lock, ← hk]
      simp [lockEvents]
    · refine ⟨k, ?_⟩
      simp only [advance_other σ hu]
      rw [hfree] at hk
      simp only [reduceCtorEq, decide_False] at hk
      simp [hk, Ne.symm hu]
  | unlock rest hown hc h1 =>
    subst h1
    by_cases hu : u = t
    · subst hu
      refine ⟨k + 1, ?_⟩
      simp only [advance_same, reduceCtorEq, decide_False]
      rw [hown] at hk
      simp only [decide_True] at hk
      rw [← lockPattern_unlock, ← hk]
      simp [lockEvents]
    · refine ⟨k, ?_⟩
      simp only [advance_other σ hu, reduceCtorEq, decide_False]
      rw [hown] at hk
      simpa [Ne.symm hu] using hk
  | push v rest hown hc _ h1 =>
    subst h1
    by_cases hu : u = t
    · subst hu
      refine ⟨k, ?_⟩
      simp only [advance_same, decide_True]
      rw [hown] at hk
      simp only [decide_True] at hk
      rw [← hk]
      simp [lockEvents]
    · refine ⟨k, ?_⟩
      simp only [advance_other σ hu]
      rw [hown] at hk
      exact hk
  | pushFail v rest hown hc _ h1 =>
    subst h1
    refine ⟨k, ?_⟩
    rw [hown] at hk
    exact hk
  | pop r s1 rest hown hc _ h1 =>
    subst h1
    by_cases hu : u = t
    · subst hu
      refine ⟨k, ?_⟩
      simp only [advance_same, decide_True]
      rw [hown] at hk
      simp only [decide_True] at hk
      rw [← hk]
      simp [lockEvents]
    · refine ⟨k, ?_⟩
      simp only [advance_other σ hu]
      rw [hown] at hk
      exact hk

theorem statusInv_moves {σ σ1 : Sys} {t : Tid} {m : Ptr} (h : Moves σ t m σ1) :
    StatusInv σ1 := by
  cases h with
  | lock rest _ _ h1 => subst h1; exact Or.inl rfl
  | unlock rest _ _ h1 => subst h1; exact Or.inl rfl
  | push v rest _ _ _ h1 => subst h1; exact Or.inl rfl
  | pushFail v rest hown hc _ h1 => subst h1; exact Or.inr ⟨rfl, t, v, rest, rfl, hc⟩
  | pop r s1 rest _ _ _ h1 => subst h1; exact Or.inl rfl

/-- A process that is not running makes no step. -/
theorem step_not_running {σ : Sys} (h : σ.status ≠ .running) (t : Tid) (m : Ptr) :
    step σ t m = none := by
  unfold step
  cases hst : σ.status with
  | running => exact absurd hst h
  | exited c => rfl
  | faulted => rfl

/-- The three invariants hold after every schedule of the threads running `testStack`. -/
theorem discipline_run {T n : Nat} {s0 : Mem} (sch : List (Tid × Ptr)) {σ σ1 : Sys}
    (hinv : Inv T n s0 σ) (hl : LockInv σ) (hst : StatusInv σ) (hr : run σ sch = some σ1) :
    Inv T n s0 σ1 ∧ LockInv σ1 ∧ StatusInv σ1 := by
  induction sch generalizing σ with
  | nil =>
    simp only [run, Option.some.injEq] at hr
    subst hr
    exact ⟨hinv, hl, hst⟩
  | cons e sch ih =>
    obtain ⟨t, m⟩ := e
    simp only [run] at hr
    cases hs : step σ t m with
    | none => simp [hs] at hr
    | some σ2 =>
      simp only [hs, Option.some_bind] at hr
      have hmv := step_moves hinv hs
      exact ih (inv_step hinv hs) (lockInv_moves hmv hl) (statusInv_moves hmv) hr

theorem discipline_start {T n : Nat} {s0 : Mem} (sch : List (Tid × Ptr)) {σ : Sys}
    (hr : run (Sys.start T n s0) sch = some σ) : Inv T n s0 σ ∧ LockInv σ ∧ StatusInv σ :=
  discipline_run sch (inv_start T n s0) (lockInv_start T n s0) (Or.inl rfl) hr

/-- C11, refuted as stated. In the program, thread 0 locks and pushes 0; the
`malloc` of its second `push` returns `NULL`. The process has then exited with
`EXIT_FAILURE` inside the critical section: the mutex is still owned by
thread 0, whose trace holds the `lock` and no `unlock`, and no thread can make
a further step, so the mutex is never released. -/
theorem C11_release_on_failure_counterexample :
    run Sys.main failSchedule = some (Sys.main.after failSchedule) ∧
    (Sys.main.after failSchedule).status = .exited EXIT_FAILURE ∧
    (Sys.main.after failSchedule).mutex = some 0 ∧
    ((Sys.main.after failSchedule).threads 0).trace = [.lock, .push 0] ∧
    ∀ t m, step (Sys.main.after failSchedule) t m = none :=
  ⟨rfl, by decide, by decide, by decide,
    fun t m => step_not_running (σ := Sys.main.after failSchedule) (by decide) t m⟩

/-- C11, amended. In every state the threads running `testStack` can reach:
in each thread's trace `lock` and `unlock` alternate and a `lock` is without
its `unlock` exactly while the thread owns the mutex, so every iteration that
has reached its end has released the mutex it acquired; the step that leaves
the critical section is the `unlock` of the owner and frees the mutex; a step
that ends the run is a `push` of the owner whose `malloc` returned `NULL`, and
it exits with `EXIT_FAILURE` leaving the mutex owned and the threads as they
were; and once the process has exited the mutex is owned and no thread makes
a step. -/
theorem C11_release_on_success (T n : Nat) (s0 : Mem) (sch : List (Tid × Ptr)) (σ : Sys)
    (hr : run (Sys.start T n s0) sch = some σ) :
    (∀ t, ∃ k, lockEvents (σ.threads t).trace = lockPattern k (decide (σ.mutex = some t))) ∧
    (∀ t m σ1 rest, (σ.threads t).calls = .unlock :: rest → step σ t m = some σ1 →
      σ.mutex = some t ∧ σ1.mutex = none ∧ σ1.status = .running) ∧
    (∀ t m σ1, step σ t m = some σ1 → σ1.status ≠ .running →
      σ.mutex = some t ∧ m = NULL ∧ σ1.status = .exited EXIT_FAILURE ∧ σ1.mutex = some t ∧
        σ1.threads = σ.threads ∧ ∃ v rest, (σ.threads t).calls = .push v :: rest) ∧
    (σ.status ≠ .running →
      σ.status = .exited EXIT_FAILURE ∧ (∃ t, σ.mutex = some t) ∧
        ∀ t m, step σ t m = none) := by
  obtain ⟨hinv, hl, hst⟩ := discipline_start sch hr
  refine ⟨hl, ?_, ?_, ?_⟩
  · intro t m σ1 rest hc hs
    cases step_moves hinv hs with
    | lock r _ hc2 _ => rw [hc] at hc2; cases hc2
    | unlock r hown _ h1 => subst h1; exact ⟨hown, rfl, rfl⟩
    | push v r _ hc2 _ _ => rw [hc] at hc2; cases hc2
    | pushFail v r _ hc2 _ _ => rw [hc] at hc2; cases hc2
    | pop x s1 r _ hc2 _ _ => rw [hc] at hc2; cases hc2
  · intro t m σ1 hs hne
    cases step_moves hinv hs with
    | lock r _ _ h1 => subst h1; exact absurd rfl hne
    | unlock r _ _ h1 => subst h1; exact absurd rfl hne
    | push v r _ _ _ h1 => subst h1; exact absurd rfl hne
    | pushFail v r hown hc hm h1 => subst h1; exact ⟨hown, hm, rfl, rfl, rfl, v, r, hc⟩
    | pop x s1 r _ _ _ h1 => subst h1; exact absurd rfl hne
  · intro hne
    rcases hst with h | ⟨h, t, _, _, hown, _⟩
    · exact absurd h hne
    · exact ⟨h, ⟨t, hown⟩, step_not_running hne⟩

/-- C11, amended, on the program after `failSchedule`. -/
theorem C11_release_on_success_witness :
    run (Sys.start NUM_THREADS ITERATIONS Mem.init) failSchedule =
      some (Sys.main.after failSchedule) ∧
    ((∀ t, ∃ k, lockEvents ((Sys.main.after failSchedule).threads t).trace =
      lockPattern k (decide ((Sys.main.after failSchedule).mutex = some t))) ∧
    (∀ t m σ1 rest, ((Sys.main.after failSchedule).threads t).calls = .unlock :: rest →
      step (Sys.main.after failSchedule) t m = some σ1 →
      (Sys.main.after failSchedule).mutex = some t ∧ σ1.mutex = none ∧
        σ1.status = .running) ∧
    (∀ t m σ1, step (Sys.main.after failSchedule) t m = some σ1 → σ1.status ≠ .running →
      (Sys.main.after failSchedule).mutex = some t ∧ m = NULL ∧
        σ1.status = .exited EXIT_FAILURE ∧ σ1.mutex = some t ∧
        σ1.threads = (Sys.main.after failSchedule).threads ∧
        ∃ v rest, ((Sys.main.after failSchedule).threads t).calls = .push v :: rest) ∧
    ((Sys.main.after failSchedule).status ≠ .running →
      (Sys.main.after failSchedule).status = .exited EXIT_FAILURE ∧
        (∃ t, (Sys.main.after failSchedule).mutex = some t) ∧
        ∀ t m, step (Sys.main.after failSchedule) t m = none)) :=
  ⟨rfl, C11_release_on_success NUM_THREADS ITERATIONS Mem.init failSchedule _ rfl⟩

/-! ## The heap invariants -/

/-- The chain after a push into a fresh block. -/
theorem chain_push {h : Heap} {p m : Ptr} {cells : List (Ptr × value_t)} (v : value_t)
    (hm : Fresh h m) (hc : Chain h p cells) :
    m ∉ cells.map Prod.fst ∧
      Chain (Function.update h m (some ⟨v, p⟩)) m ((m, v) :: cells) := by
  obtain ⟨hnull, hfree⟩ := hm
  have hnot : m ∉ cells.map Prod.fst := by
    intro hin
    obtain ⟨⟨a, d⟩, hmem, rfl⟩ := List.mem_map.1 hin
    obtain ⟨_, ⟨n, hn, _⟩, _⟩ := chain_mem hc hmem
    rw [hfree] at hn
    cases hn
  exact ⟨hnot, Chain.cons (n := ⟨v, p⟩) hnull (by simp) (chain_update hc hnot _)⟩

/-- The chain after the top node is unlinked and freed. -/
theorem chain_pop {h : Heap} {p : Ptr} {n : StackNode} {cells : List (Ptr × value_t)}
    (hc : Chain h p cells) (hp : p ≠ NULL) (hn : h p = some n) :
    ∃ rest, cells = (p, n.data) :: rest ∧ p ∉ rest.map Prod.fst ∧
      Chain (Function.update h p none) n.next rest := by
  cases hc with
  | nil => exact absurd rfl hp
  | @cons _ n2 rest _ hn2 hr =>
    rw [hn] at hn2
    cases hn2
    have hnot := chain_head_not_mem (Chain.cons hp hn hr)
    exact ⟨rest, rfl, hnot, chain_update hr hnot none⟩

/-- A chain visits no address twice. -/
theorem chain_nodup {h : Heap} {p : Ptr} {cells : List (Ptr × value_t)} (hc : Chain h p cells) :
    (cells.map Prod.fst).Nodup := by
  induction hc with
  | nil => exact List.nodup_nil
  | @cons p n cells hp hn hr ih =>
    rw [List.map_cons, List.nodup_cons]
    exact ⟨chain_head_not_mem (Chain.cons hp hn hr), ih⟩

theorem acyclic_iff (s : Mem) : Acyclic s ↔ ∃ cells, Chain s.heap s.top cells :=
  ⟨fun ⟨c, hc, _⟩ => ⟨c, hc⟩, fun ⟨c, hc⟩ => ⟨c, hc, chain_nodup hc⟩⟩

theorem acyclic_push {s : Mem} (m : Ptr) (v : value_t) (ha : Acyclic s)
    (hm : Fresh s.heap m) :
    Acyclic ⟨Function.update s.heap m (some ⟨v, s.top⟩), m⟩ := by
  obtain ⟨cells, hc, _⟩ := ha
  exact (acyclic_iff _).2 ⟨_, (chain_push v hm hc).2⟩

/-- On an acyclic memory `pop` returns, and the memory stays acyclic. -/
theorem acyclic_pop {s : Mem} (ha : Acyclic s) :
    ∃ r s1, pop s = .ret r s1 ∧ Acyclic s1 := by
  obtain ⟨cells, hc, hnd⟩ := ha
  by_cases ht : s.top = NULL
  · exact ⟨0, s, pop_empty ht, cells, hc, hnd⟩
  · cases hcells : cells with
    | nil =>
      rw [hcells] at hc
      exact absurd ((chain_nil_iff _ _).1 hc) ht
    | cons c rest =>
      obtain ⟨a, x⟩ := c
      rw [hcells] at hc
      obtain ⟨_, _, n, hn, _, _⟩ := chain_cons_inv hc
      obtain ⟨rest2, _, _, hr⟩ := chain_pop hc ht hn
      exact ⟨n.data, _, pop_nonempty ht hn, (acyclic_iff _).2 ⟨rest2, hr⟩⟩

/-- If `pop` returns, it keeps an acyclic memory acyclic. -/
theorem acyclic_of_pop {s s1 : Mem} {r : value_t} (ha : Acyclic s) (hp : pop s = .ret r s1) :
    Acyclic s1 := by
  obtain ⟨r2, s2, hp2, ha2⟩ := acyclic_pop ha
  rw [hp] at hp2
  cases hp2
  exact ha2

/-- What a step of the running program does to the stack memory: nothing, a
`push` into a fresh block, or a `pop`. -/
theorem step_mem {σ σ1 : Sys} {t : Tid} {m : Ptr} (hs : step σ t m = some σ1) :
    σ1.mem = σ.mem ∨ (∃ v, Fresh σ.mem.heap m ∧ push m v σ.mem = .ret () σ1.mem) ∨
      ∃ r, pop σ.mem = .ret r σ1.mem := by
  unfold step at hs
  cases hst : σ.status with
  | exited c => simp [hst] at hs
  | faulted => simp [hst] at hs
  | running =>
    simp only [hst] at hs
    cases hc : (σ.threads t).calls with
    | nil => simp [hc] at hs
    | cons c rest =>
      simp only [hc] at hs
      cases c with
      | lock =>
        by_cases hf : σ.mutex = none
        · simp only [hf, if_true, Option.some.injEq] at hs
          subst hs
          exact Or.inl rfl
        · simp [hf] at hs
      | unlock =>
        by_cases hf : σ.mutex = some t
        · simp only [hf, if_true, Option.some.injEq] at hs
          subst hs
          exact Or.inl rfl
        · simp only [hf, if_false, Option.some.injEq] at hs
          subst hs
          exact Or.inl rfl
      | push v =>
        by_cases hbad : m ≠ NULL ∧ (σ.mem.heap m).isSome = true
        · simp [hbad] at hs
        · simp only [hbad, if_false] at hs
          by_cases hm : m = NULL
          · subst hm
            simp only [push_null, Option.some.injEq] at hs
            subst hs
            exact Or.inl rfl
          · have hfresh : Fresh σ.mem.heap m := by
              refine ⟨hm, ?_⟩
              cases hh : σ.mem.heap m with
              | none => rfl
              | some x => exact absurd ⟨hm, by simp [hh]⟩ hbad
            simp only [push_ok hm, Option.some.injEq] at hs
            subst hs
            exact Or.inr (Or.inl ⟨v, hfresh, push_ok hm v σ.mem⟩)
      | pop =>
        cases hp : pop σ.mem with
        | ret r s1 =>
          simp only [hp, Option.some.injEq] at hs
          subst hs
          exact Or.inr (Or.inr ⟨r, rfl⟩)
        | exit c s1 =>
          simp [pop, is_empty, Outcome.andThen] at hp
          split at hp
          · cases hp
          · split at hp <;> cases hp
        | fault =>
          simp only [hp, Option.some.injEq] at hs
          subst hs
          exact Or.inl rfl
      | is_empty =>
        simp only [is_empty, Option.some.injEq] at hs
        subst hs
        exact Or.inl rfl

/-- A property of the stack memory that a `push` into a fresh block and a
returning `pop` keep holds after every schedule, whatever the threads call. -/
theorem run_preserves (P : Mem → Prop)
    (hpush : ∀ s m v s1, P s → Fresh s.heap m → push m v s = .ret () s1 → P s1)
    (hpop : ∀ s r s1, P s → pop s = .ret r s1 → P s1)
    (sch : List (Tid × Ptr)) {σ σ1 : Sys} (hr : run σ sch = some σ1) (h : P σ.mem) :
    P σ1.mem := by
  induction sch generalizing σ with
  | nil =>
    simp only [run, Option.some.injEq] at hr
    subst hr
    exact h
  | cons e sch ih =>
    obtain ⟨t, m⟩ := e
    simp only [run] at hr
    cases hs : step σ t m with
    | none => simp [hs] at hr
    | some σ2 =>
      simp only [hs, Option.some_bind] at hr
      refine ih hr ?_
      rcases step_mem hs with h1 | ⟨v, hf, hp⟩ | ⟨r, hp⟩
      · rw [h1]; exact h
      · exact hpush _ _ _ _ h hf hp
      · exact hpop _ _ _ h hp

/-- Such a property holds in every reachable memory when it holds initially. -/
theorem reachable_preserves (P : Mem → Prop) (hinit : P Mem.init)
    (hpush : ∀ s m v s1, P s → Fresh s.heap m → push m v s = .ret () s1 → P s1)
    (hpop : ∀ s r s1, P s → pop s = .ret r s1 → P s1)
    {s : Mem} (hr : Reachable s) : P s := by
  induction hr with
  | init => exact hinit
  | push m v _ hf hp ih => exact hpush _ _ _ _ ih hf hp
  | pop r _ hp ih => exact hpop _ _ _ ih hp
  | is_empty r _ he ih =>
    simp only [is_empty, Outcome.ret.injEq] at he
    rw [← he.2]
    exact ih

theorem acyclic_init : Acyclic Mem.init := ⟨[], Chain.nil, List.nodup_nil⟩

theorem acyclic_of_push {s s1 : Mem} {m : Ptr} {v : value_t} (ha : Acyclic s)
    (hf : Fresh s.heap m) (hp : push m v s = .ret () s1) : Acyclic s1 := by
  rw [push_ok hf.1] at hp
  cases hp
  exact acyclic_push m v ha hf

/-- C12. Chain invariant, over the heap model in which `push` gets a fresh
block: "following `next` from `top` reaches `NULL` after finitely many nodes
and visits no address twice" holds for the initial empty stack; a `push`
keeps it (and a `push` whose `malloc` fails leaves the memory as it is); on a
memory that satisfies it `pop` returns and keeps it; `is_empty` returns and
changes nothing; hence it holds in every memory reachable by calls of the
three functions, and in the stack memory after every schedule of the program
and of any threads calling the functions in any interleaving. -/
theorem C12_chain_invariant :
    Acyclic Mem.init ∧
    (∀ s m v, Acyclic s → Fresh s.heap m → ∃ s1, push m v s = .ret () s1 ∧ Acyclic s1) ∧
    (∀ s v, push NULL v s = .exit EXIT_FAILURE s) ∧
    (∀ s, Acyclic s → ∃ r s1, pop s = .ret r s1 ∧ Acyclic s1) ∧
    (∀ s, ∃ r, is_empty s = .ret r s) ∧
    (∀ s, Reachable s → Acyclic s) ∧
    (∀ (σ σ1 : Sys) sch, run σ sch = some σ1 → Acyclic σ.mem → Acyclic σ1.mem) ∧
    (∀ sch σ, run Sys.main sch = some σ → Acyclic σ.mem) ∧
    (∀ s, Acyclic s ↔ ∃ fuel cells, walk s.heap fuel s.top = some cells) := by
  refine ⟨acyclic_init, ?_, fun s v => push_null v s, fun s ha => acyclic_pop ha, fun s => ⟨_, rfl⟩, ?_, ?_, ?_, ?_⟩
  · intro s m v ha hf
    exact ⟨_, push_ok hf.1 v s, acyclic_push m v ha hf⟩
  · intro s hr
    exact reachable_preserves Acyclic acyclic_init
      (fun _ _ _ _ ha hf hp => acyclic_of_push ha hf hp)
      (fun _ _ _ ha hp => acyclic_of_pop ha hp) hr
  · intro σ σ1 sch hr ha
    exact run_preserves Acyclic (fun _ _ _ _ ha hf hp => acyclic_of_push ha hf hp)
      (fun _ _ _ ha hp => acyclic_of_pop ha hp) sch hr ha
  · intro sch σ hr
    exact run_preserves Acyclic (fun _ _ _ _ ha hf hp => acyclic_of_push ha hf hp)
      (fun _ _ _ ha hp => acyclic_of_pop ha hp) sch hr acyclic_init
  · intro s
    rw [acyclic_iff]
    constructor
    · rintro ⟨cells, hc⟩
      exact ⟨cells.length, cells, (walk_eq_some_iff _ _ _ _).2 ⟨hc, le_refl _⟩⟩
    · rintro ⟨fuel, cells, hw⟩
      exact ⟨cells, ((walk_eq_some_iff _ _ _ _).1 hw).1⟩

theorem owned_init : Owned Mem.init :=
  ⟨[], Chain.nil, fun p => by simp [Mem.init, emptyHeap]⟩

/-- A push into a fresh block adds that block, and only it, to the live blocks
and to the chain. -/
theorem owned_push {s : Mem} (m : Ptr) (v : value_t) (ho : Owned s) (hm : Fresh s.heap m) :
    Owned ⟨Function.update s.heap m (some ⟨v, s.top⟩), m⟩ ∧
      ∀ p, ((Function.update s.heap m (some ⟨v, s.top⟩)) p).isSome = true ↔
        p = m ∨ (s.heap p).isSome = true := by
  obtain ⟨cells, hc, hlive⟩ := ho
  have hall : ∀ p, ((Function.update s.heap m (some ⟨v, s.top⟩)) p).isSome = true ↔
      p = m ∨ (s.heap p).isSome = true := by
    intro p
    by_cases hp : p = m
    · subst hp; simp
    · simp [Function.update, hp]
  refine ⟨⟨(m, v) :: cells, (chain_push v hm hc).2, ?_⟩, hall⟩
  intro p
  rw [hall p, hlive p]
  simp

/-- On a memory whose live blocks are the chain, `pop` returns; when the stack
is not empty it frees the top node, which was live, and nothing else. -/
theorem owned_pop {s : Mem} (ho : Owned s) :
    ∃ r s1, pop s = .ret r s1 ∧ Owned s1 ∧
      (s.top ≠ NULL → (s.heap s.top).isSome = true ∧
        ∀ p, (s1.heap p).isSome = true ↔ p ≠ s.top ∧ (s.heap p).isSome = true) := by
  obtain ⟨cells, hc, hlive⟩ := ho
  by_cases ht : s.top = NULL
  · exact ⟨0, s, pop_empty ht, ⟨cells, hc, hlive⟩, fun h => absurd ht h⟩
  · cases hcells : cells with
    | nil =>
      rw [hcells] at hc
      exact absurd ((chain_nil_iff _ _).1 hc) ht
    | cons c rest =>
      obtain ⟨a, x⟩ := c
      rw [hcells] at hc
      obtain ⟨_, _, n, hn, _, _⟩ := chain_cons_inv hc
      obtain ⟨rest2, hrest, hnot, hr⟩ := chain_pop hc ht hn
      have hall : ∀ p, ((Function.update s.heap s.top none) p).isSome = true ↔
          p ≠ s.top ∧ (s.heap p).isSome = true := by
        intro p
        by_cases hp : p = s.top
        · subst hp; simp
        · simp [Function.update, hp]
      refine ⟨n.data, _, pop_nonempty ht hn, ⟨rest2, hr, ?_⟩, fun _ => ⟨by simp [hn], hall⟩⟩
      intro p
      rw [hall p, hlive p, hcells, hrest]
      simp only [List.map_cons, List.mem_cons]
      constructor
      · rintro ⟨h1, h2 | h2⟩
        · exact absurd h2 h1
        · exact h2
      · intro h
        exact ⟨fun e => hnot (e ▸ h), Or.inr h⟩

theorem owned_of_push {s s1 : Mem} {m : Ptr} {v : value_t} (ho : Owned s)
    (hf : Fresh s.heap m) (hp : push m v s = .ret () s1) : Owned s1 := by
  rw [push_ok hf.1] at hp
  cases hp
  exact (owned_push m v ho hf).1

theorem owned_of_pop {s s1 : Mem} {r : value_t} (ho : Owned s) (hp : pop s = .ret r s1) :
    Owned s1 := by
  obtain ⟨r2, s2, hp2, ho2, _⟩ := owned_pop ho
  rw [hp] at hp2
  cases hp2
  exact ho2

/-- C13. Node lifecycle, over the heap model: in every memory reachable from
the empty stack by calls of the stack functions, and in the stack memory after
every schedule of the program, the live blocks are exactly the nodes on the
chain from `top`. A `push` makes exactly one block live, which was not live
before, and links it as the new top. A `pop` on a non-empty stack frees
exactly the top node, which was live, and afterwards that node is neither live
nor on the chain; a `pop` on the empty stack changes nothing. So no block is
freed while not live, and no node stays live once it is unlinked. -/
theorem C13_node_lifecycle :
    (∀ s, Reachable s → Owned s) ∧
    (∀ sch σ, run Sys.main sch = some σ → Owned σ.mem) ∧
    (∀ s m v, Owned s → Fresh s.heap m →
      ∃ s1, push m v s = .ret () s1 ∧ Owned s1 ∧ s1.top = m ∧
        s1.heap m = some ⟨v, s.top⟩ ∧ (s.heap m).isSome = false ∧
        ∀ p, (s1.heap p).isSome = true ↔ p = m ∨ (s.heap p).isSome = true) ∧
    (∀ s, Owned s → s.top ≠ NULL →
      ∃ r s1, pop s = .ret r s1 ∧ Owned s1 ∧ (s.heap s.top).isSome = true ∧
        (∀ p, (s1.heap p).isSome = true ↔ p ≠ s.top ∧ (s.heap p).isSome = true) ∧
        (s1.heap s.top).isSome = false ∧
        ∀ cells, Chain s1.heap s1.top cells → s.top ∉ cells.map Prod.fst) ∧
    (∀ s, s.top = NULL → pop s = .ret 0 s) := by
  refine ⟨?_, ?_, ?_, ?_, fun s ht => pop_empty ht⟩
  · intro s hr
    exact reachable_preserves Owned owned_init
      (fun _ _ _ _ ho hf hp => owned_of_push ho hf hp)
      (fun _ _ _ ho hp => owned_of_pop ho hp) hr
  · intro sch σ hr
    exact run_preserves Owned (fun _ _ _ _ ho hf hp => owned_of_push ho hf hp)
      (fun _ _ _ ho hp => owned_of_pop ho hp) sch hr owned_init
  · intro s m v ho hf
    obtain ⟨h1, h2⟩ := owned_push m v ho hf
    exact ⟨_, push_ok hf.1 v s, h1, rfl, by simp, by simp [hf.2], h2⟩
  · intro s ho ht
    obtain ⟨r, s1, hp, ho1, h⟩ := owned_pop ho
    obtain ⟨hlive, hall⟩ := h ht
    have hdead : (s1.heap s.top).isSome = false := by
      cases hh : (s1.heap s.top).isSome with
      | false => rfl
      | true => exact absurd rfl ((hall s.top).1 hh).1
    refine ⟨r, s1, hp, ho1, hlive, hall, hdead, ?_⟩
    intro cells hc hin
    obtain ⟨c2, hc2, hl2⟩ := ho1
    rw [chain_unique hc hc2] at hin
    have := (hl2 s.top).2 hin
    rw [hdead] at this
    cases this

/-- A step that is a call of a stack function adds no `lock` or `unlock` to
the thread's trace. -/
theorem step_onStack_lockEvents {τ τ1 : Sys} {t : Tid} {m : Ptr} {c : Call}
    {rest : List Call} (hc : (τ.threads t).calls = c :: rest) (hon : c.onStack = true)
    (hs : step τ t m = some τ1) :
    lockEvents (τ1.threads t).trace = lockEvents (τ.threads t).trace := by
  unfold step at hs
  cases hst : τ.status with
  | exited code => simp [hst] at hs
  | faulted => simp [hst] at hs
  | running =>
    simp only [hst, hc] at hs
    cases c with
    | lock => simp [Call.onStack] at hon
    | unlock => simp [Call.onStack] at hon
    | push v =>
      by_cases hbad : m ≠ NULL ∧ (τ.mem.heap m).isSome = true
      · simp [hbad] at hs
      · simp only [hbad, if_false] at hs
        cases hp : push m v τ.mem <;> simp only [hp, Option.some.injEq] at hs <;>
          (rw [← hs]; try simp [advance_same, lockEvents])
    | pop =>
      cases hp : pop τ.mem <;> simp only [hp, Option.some.injEq] at hs <;>
        (rw [← hs]; try simp [advance_same, lockEvents])
    | is_empty =>
      simp only [is_empty, Option.some.injEq] at hs
      rw [← hs]
      simp [advance_same, lockEvents]

/-- C14. No nested acquisition: in every state the threads running
`testStack` can reach, a thread whose next call is `lock` does not own the
mutex, so a thread that has to wait at `lock` waits for another thread, never
for itself; in every thread's trace `lock` and `unlock` alternate, one `lock`
followed by one `unlock` per iteration, the last `lock` being without its
`unlock` exactly while the thread owns the mutex; the calls of an iteration
are one `lock`, then calls of stack functions only, then one `unlock`; and a
call of `push`, `pop` or `is_empty` leaves the mutex as it is and adds no
`lock` or `unlock` to the trace. -/
theorem C14_no_nested_acquisition (T n : Nat) (s0 : Mem) (sch : List (Tid × Ptr)) (σ : Sys)
    (hr : run (Sys.start T n s0) sch = some σ) :
    (∀ t rest, (σ.threads t).calls = .lock :: rest → σ.mutex ≠ some t) ∧
    (∀ t m rest, (σ.threads t).calls = .lock :: rest → σ.status = .running →
      step σ t m = none → ∃ u, u ≠ t ∧ σ.mutex = some u) ∧
    (∀ t, ∃ k, lockEvents (σ.threads t).trace = lockPattern k (decide (σ.mutex = some t))) ∧
    (∀ i : value_t, ∃ mid, iterationCalls i = .lock :: mid ++ [.unlock] ∧
      ∀ c ∈ mid, c.onStack = true) ∧
    (∀ (τ τ1 : Sys) t m c rest, (τ.threads t).calls = c :: rest → c.onStack = true →
      step τ t m = some τ1 →
      τ1.mutex = τ.mutex ∧ lockEvents (τ1.threads t).trace = lockEvents (τ.threads t).trace) := by
  obtain ⟨hinv, hl, _⟩ := discipline_start sch hr
  have hnot : ∀ t rest, (σ.threads t).calls = .lock :: rest → σ.mutex ≠ some t := by
    intro t rest hc hown
    obtain ⟨i, cs, _, hcalls, hcs⟩ := hinv.held t hown
    rw [hc] at hcalls
    cases cs with
    | nil => simp at hcalls
    | cons c cs =>
      simp only [List.cons_append, List.cons.injEq] at hcalls
      rw [← hcalls.1] at hcs
      simp [InCS] at hcs
  refine ⟨hnot, ?_, hl, ?_, ?_⟩
  · intro t m rest hc hst hs
    cases hmx : σ.mutex with
    | none => simp [step, hst, hc, hmx] at hs
    | some u =>
      refine ⟨u, ?_, rfl⟩
      intro e
      subst e
      exact hnot u rest hc hmx
  · intro i
    exact ⟨[.push i, .push (i + 1), .push (i + 2), .pop, .pop, .pop], rfl, by simp [Call.onStack]⟩
  · intro τ τ1 t m c rest hc hon hs
    exact ⟨step_onStack_mutex hc hon hs, step_onStack_lockEvents hc hon hs⟩

/-- C14 on the program after `exampleSchedule`. -/
theorem C14_no_nested_acquisition_witness :
    run (Sys.start NUM_THREADS ITERATIONS Mem.init) exampleSchedule =
      some (Sys.main.after exampleSchedule) ∧
    ((∀ t rest, ((Sys.main.after exampleSchedule).threads t).calls = .lock :: rest →
      (Sys.main.after exampleSchedule).mutex ≠ some t) ∧
    (∀ t m rest, ((Sys.main.after exampleSchedule).threads t).calls = .lock :: rest →
      (Sys.main.after exampleSchedule).status = .running →
      step (Sys.main.after exampleSchedule) t m = none →
      ∃ u, u ≠ t ∧ (Sys.main.after exampleSchedule).mutex = some u) ∧
    (∀ t, ∃ k, lockEvents ((Sys.main.after exampleSchedule).threads t).trace =
      lockPattern k (decide ((Sys.main.after exampleSchedule).mutex = some t))) ∧
    (∀ i : value_t, ∃ mid, iterationCalls i = .lock :: mid ++ [.unlock] ∧
      ∀ c ∈ mid, c.onStack = true) ∧
    (∀ (τ τ1 : Sys) t m c rest, (τ.threads t).calls = c :: rest → c.onStack = true →
      step τ t m = some τ1 →
      τ1.mutex = τ.mutex ∧
        lockEvents (τ1.threads t).trace = lockEvents (τ.threads t).trace)) :=
  ⟨rfl, C14_no_nested_acquisition NUM_THREADS ITERATIONS Mem.init exampleSchedule _ rfl⟩

/-! ## Return value of `pop` and the general round trip -/

/-- C15. The return value of `pop` does not identify emptiness: whenever `pop`
returns, the value is 0 exactly when `top` is `NULL` or the data of the top
node is 0; on every stack, holding the values `xs`, `pop` returns, and the
value is 0 exactly when `xs` is empty or its first value is 0; popping the
empty stack leaves the memory as it is while popping a non-empty stack changes
it. In particular the empty stack and the stack holding a single 0 both
return 0, and only the second is changed. -/
theorem C15_pop_zero_ambiguous :
    (∀ s r s1, pop s = .ret r s1 →
      (r = 0 ↔ s.top = NULL ∨ ∃ n, s.heap s.top = some n ∧ n.data = 0)) ∧
    (∀ s xs, Holds s xs →
      ∃ r s1, pop s = .ret r s1 ∧ (r = 0 ↔ xs = [] ∨ xs.head? = some 0) ∧
        (xs = [] → s1 = s) ∧ (xs ≠ [] → s1 ≠ s ∧ Holds s1 xs.tail)) ∧
    pop Mem.init = .ret 0 Mem.init ∧
    Holds zeroTop [0] ∧
    (∃ s1, pop zeroTop = .ret 0 s1 ∧ s1 ≠ zeroTop ∧ Holds s1 []) := by
  have hgen : ∀ s xs, Holds s xs →
      ∃ r s1, pop s = .ret r s1 ∧ (r = 0 ↔ xs = [] ∨ xs.head? = some 0) ∧
        (xs = [] → s1 = s) ∧ (xs ≠ [] → s1 ≠ s ∧ Holds s1 xs.tail) := by
    rintro s xs ⟨cells, hc, rfl⟩
    cases cells with
    | nil =>
      have ht := (chain_nil_iff _ _).1 hc
      exact ⟨0, s, pop_empty ht, by simp, fun _ => rfl, fun h => absurd rfl h⟩
    | cons c rest =>
      obtain ⟨a, x⟩ := c
      obtain ⟨_, hp, n, hn, hx, _⟩ := chain_cons_inv hc
      obtain ⟨rest2, hrest, _, hr⟩ := chain_pop hc hp hn
      simp only [List.cons.injEq, Prod.mk.injEq] at hrest
      obtain ⟨⟨_, _⟩, rfl⟩ := hrest
      refine ⟨n.data, _, pop_nonempty hp hn, by simp [hx], by simp, fun _ => ⟨?_, rest, hr, rfl⟩⟩
      intro e
      have h1 := congrArg (fun m : Mem => m.heap s.top) e
      simp [hn] at h1
  have hz : Holds zeroTop [0] :=
    ⟨[(1, 0)], Chain.cons (n := ⟨0, NULL⟩) (by decide) (by simp [zeroTop]) Chain.nil, rfl⟩
  refine ⟨?_, hgen, pop_empty rfl, hz, ?_⟩
  · intro s r s1 hp
    by_cases ht : s.top = NULL
    · rw [pop_empty ht] at hp
      cases hp
      simp [ht]
    · cases hn : s.heap s.top with
      | none => simp [pop, is_empty, Outcome.andThen, ht, hn] at hp
      | some node =>
        rw [pop_nonempty ht hn] at hp
        cases hp
        simp [ht]
  · obtain ⟨r, s1, hp, hr, _, hne⟩ := hgen zeroTop [0] hz
    have h0 : r = 0 := hr.2 (Or.inr rfl)
    subst h0
    obtain ⟨h1, h2⟩ := hne (by simp)
    exact ⟨s1, hp, h1, h2⟩

/-- One more pop at the end: `n + 1` pops are `n` pops followed by one. -/
theorem popTimes_succ_last (n : Nat) (s : Mem) :
    popTimes (n + 1) s =
      (popTimes n s).andThen fun rs s1 => (pop s1).andThen fun r s2 => .ret (rs ++ [r]) s2 := by
  induction n generalizing s with
  | zero =>
    simp only [popTimes, Outcome.andThen]
    cases pop s <;> simp [Outcome.andThen]
  | succ n ih =>
    rw [popTimes]
    conv_rhs => rw [popTimes]
    cases hp : pop s with
    | ret r s1 =>
      simp only [Outcome.andThen]
      rw [ih s1]
      cases hq : popTimes n s1 with
      | ret rs s2 =>
        simp only [Outcome.andThen]
        cases pop s2 <;> simp [Outcome.andThen]
      | exit c s2 => simp [Outcome.andThen]
      | fault => simp [Outcome.andThen]
    | exit c s1 => simp [Outcome.andThen]
    | fault => simp [Outcome.andThen]

/-- Pushing a list of values into fresh, pairwise different blocks and popping
as many times returns the values in reverse and restores the memory. -/
theorem pushAll_popTimes (bs : List (Ptr × value_t)) (s : Mem)
    (hf : ∀ b ∈ bs, Fresh s.heap b.1) (hd : (bs.map Prod.fst).Nodup) :
    ((pushAll bs s).andThen fun _ s1 => popTimes bs.length s1) =
      .ret (bs.map Prod.snd).reverse s := by
  induction bs generalizing s with
  | nil => rfl
  | cons b bs ih =>
    obtain ⟨m, v⟩ := b
    have hm : Fresh s.heap m := hf (m, v) (List.mem_cons_self _ _)
    rw [List.map_cons, List.nodup_cons] at hd
    have hf1 : ∀ b ∈ bs, Fresh (Function.update s.heap m (some ⟨v, s.top⟩)) b.1 := by
      intro b hb
      obtain ⟨h1, h2⟩ := hf b (List.mem_cons_of_mem _ hb)
      have hne : b.1 ≠ m := fun e => hd.1 (List.mem_map.2 ⟨b, hb, e⟩)
      exact ⟨h1, by simp [Function.update, hne, h2]⟩
    have h1 := ih ⟨Function.update s.heap m (some ⟨v, s.top⟩), m⟩ hf1 hd.2
    have hpop : pop ⟨Function.update s.heap m (some ⟨v, s.top⟩), m⟩ = .ret v s := by
      rw [pop_nonempty (n := ⟨v, s.top⟩) hm.1 (by simp)]
      cases s with
      | mk heap top =>
        simp only [Outcome.ret.injEq, Mem.mk.injEq, and_true, true_and]
        simpa using hm.2.symm
    have e := andThen_assoc
      (pushAll bs ⟨Function.update s.heap m (some ⟨v, s.top⟩), m⟩)
      (fun _ s1 => popTimes bs.length s1)
      (fun rs s1 => (pop s1).andThen fun r s2 => .ret (rs ++ [r]) s2)
    rw [h1] at e
    rw [pushAll, push_ok hm.1]
    simp only [List.length_cons, popTimes_succ_last]
    refine Eq.trans ?_ (e.symm.trans ?_)
    · rfl
    · simp [Outcome.andThen, hpop]

/-- C16. General LIFO round trip: from every memory `s`, for every list of
values of any length (zeros included), pushing them in order, each into a
fresh block different from the others, and then calling `pop` as many times
returns the values in reverse order and restores the memory to exactly `s`;
one more `pop` is then the `pop` of `s`: it returns the top value of `s` when
`s` holds one, and 0 when `s` is empty. -/
theorem C16_lifo_round_trip (s : Mem) (bs : List (Ptr × value_t))
    (hf : ∀ b ∈ bs, Fresh s.heap b.1) (hd : (bs.map Prod.fst).Nodup) :
    ((pushAll bs s).andThen fun _ s1 => popTimes bs.length s1) =
      .ret (bs.map Prod.snd).reverse s ∧
    ((pushAll bs s).andThen fun _ s1 =>
      (popTimes bs.length s1).andThen fun _ s2 => pop s2) = pop s ∧
    (∀ x xs, Holds s (x :: xs) → ∃ s3, pop s = .ret x s3 ∧ Holds s3 xs) ∧
    (Holds s [] → pop s = .ret 0 s) := by
  have h1 := pushAll_popTimes bs s hf hd
  refine ⟨h1, ?_, ?_, ?_⟩
  · rw [← andThen_assoc, h1]
    rfl
  · rintro x xs ⟨cells, hc, hx⟩
    cases cells with
    | nil => simp at hx
    | cons c rest =>
      obtain ⟨a, y⟩ := c
      simp only [List.map_cons, List.cons.injEq] at hx
      obtain ⟨rfl, rfl⟩ := hx
      obtain ⟨_, hp, n, hn, hy, _⟩ := chain_cons_inv hc
      obtain ⟨rest2, hrest, _, hr⟩ := chain_pop hc hp hn
      simp only [List.cons.injEq, Prod.mk.injEq] at hrest
      obtain ⟨_, rfl⟩ := hrest
      refine ⟨⟨Function.update s.heap s.top none, n.next⟩, ?_, rest, hr, rfl⟩
      rw [pop_nonempty hp hn, hy]
  · intro h
    exact pop_empty ((holds_nil_iff s).1 h)

/-- C16 on the stack holding a single 0: pushing 4, 0, 9 into the blocks 2, 3,
5 and popping three times. -/
theorem C16_lifo_round_trip_witness :
    (∀ b ∈ [((2 : Ptr), (4 : value_t)), (3, 0), (5, 9)], Fresh zeroTop.heap b.1) ∧
    ([((2 : Ptr), (4 : value_t)), (3, 0), (5, 9)].map Prod.fst).Nodup ∧
    (((pushAll [((2 : Ptr), (4 : value_t)), (3, 0), (5, 9)] zeroTop).andThen fun _ s1 =>
        popTimes [((2 : Ptr), (4 : value_t)), (3, 0), (5, 9)].length s1) =
      .ret ([((2 : Ptr), (4 : value_t)), (3, 0), (5, 9)].map Prod.snd).reverse zeroTop ∧
    ((pushAll [((2 : Ptr), (4 : value_t)), (3, 0), (5, 9)] zeroTop).andThen fun _ s1 =>
      (popTimes [((2 : Ptr), (4 : value_t)), (3, 0), (5, 9)].length s1).andThen
        fun _ s2 => pop s2) = pop zeroTop ∧
    (∀ x xs, Holds zeroTop (x :: xs) → ∃ s3, pop zeroTop = .ret x s3 ∧ Holds s3 xs) ∧
    (Holds zeroTop [] → pop zeroTop = .ret 0 zeroTop)) :=
  have hf : ∀ b ∈ [((2 : Ptr), (4 : value_t)), (3, 0), (5, 9)], Fresh zeroTop.heap b.1 := by
    simp [Fresh, zeroTop, emptyHeap, NULL, Function.update]
  have hd : ([((2 : Ptr), (4 : value_t)), (3, 0), (5, 9)].map Prod.fst).Nodup := by decide
  ⟨hf, hd, C16_lifo_round_trip zeroTop _ hf hd⟩

end Stack
